import Mathlib

/-!
Verification of the leveldb-py convenience layer (src/leveldb/convenience.py).

The storage engine behind the layer is modelled as a sorted association list
of byte-string keys to values; the native cursor is an optional index into
that list.  Byte strings are lists of naturals (each byte < 256 where the
reasoning needs it), ordered byte-lexicographically exactly as the engine
orders keys.  All definitions are translated from the Python source; the
native cursor primitives (seek / next / prev / key / valid), whose
implementation lives outside this repository, are modelled from the spec's
engine-boundary description (spec sections 4.2 and 6).
-/

set_option autoImplicit false

namespace LevelDB

/-- Byte strings: keys, values and scoping prefixes. -/
abbrev Str := List Nat

/-- Byte-lexicographic strict order on byte strings, the order the storage
engine keeps its keys in. -/
def strLt : Str → Str → Bool
  | _, [] => false
  | [], _ :: _ => true
  | a :: as, b :: bs => decide (a < b) || (decide (a = b) && strLt as bs)

/-- The prefix test exactly as the Python code writes it:
`key[:len(prefix)] == prefix`. -/
def pfxOk (P k : Str) : Bool := decide (k.take P.length = P)

/-! ## Store and native cursor

Modelled from the spec: the storage engine (external collaborator, spec
section 6) holds entries sorted in ascending byte-lexicographic key order;
a native cursor is either invalid or positioned on an entry, with
`seek(k)` landing on the first entry whose key is at or above `k` (invalid
when none), `seekFirst`/`seekLast` landing on the first/last entry,
`next`/`prev` stepping off either end into the invalid state, and
`key()`/`value()` undefined unless the cursor is valid. -/

/-- The engine's contents: entries as (key, value) pairs, kept in strictly
ascending key order. -/
abbrev Store := List (Str × Str)

/-- The engine invariant: keys strictly ascending in byte order. -/
def sortedStore (s : Store) : Prop :=
  List.Pairwise (fun a b => strLt a.1 b.1 = true) s

/-- Native cursor: `seekFirst` positions on the first entry. -/
def nseekFirst (s : Store) : Option Nat := if s.isEmpty then none else some 0

/-- Native cursor: `seekLast` positions on the last entry. -/
def nseekLast (s : Store) : Option Nat :=
  if s.isEmpty then none else some (s.length - 1)

/-- Native cursor: `seek(k)` positions on the first entry with key at or
above `k`, or goes invalid when every key is below `k`. -/
def seekIdx (s : Store) (k : Str) : Option Nat :=
  match s with
  | [] => none
  | e :: rest => if strLt e.1 k then (seekIdx rest k).map (· + 1) else some 0

/-- Native cursor: `next()` steps forward, off the last entry into
invalidity. -/
def nnext (s : Store) (pos : Option Nat) : Option Nat :=
  match pos with
  | none => none
  | some i => if i + 1 < s.length then some (i + 1) else none

/-- Native cursor: `prev()` steps backward, off the first entry into
invalidity. -/
def nprev (pos : Option Nat) : Option Nat :=
  match pos with
  | none => none
  | some i => if i = 0 then none else some (i - 1)

/-! ## Iterator (src/leveldb/convenience.py, class Iterator)

An iterator holds a guard around a native cursor, an optional byte
prefix, and a keys-only flag.  Here the native cursor is the pair of the
store and an optional index, and each method is a function of those. -/

/-- Prefix test lifted to the iterator's optional prefix. -/
def pfxOkOpt : Option Str → Str → Bool
  | none, _ => true
  | some P, k => pfxOk P k

/-- Key translation on the way out: `key[len(prefix):]`. -/
def stripPfx : Option Str → Str → Str
  | none, k => k
  | some P, k => k.drop P.length

namespace Iterator

/-- Iterator.valid: the native cursor is positioned and, when a prefix is
set, the entry's key begins with the prefix. -/
def valid (s : Store) (pf : Option Str) (pos : Option Nat) : Bool :=
  match pos with
  | none => false
  | some i =>
    match s[i]? with
    | none => false
    | some e => pfxOkOpt pf e.1

/-- Iterator.seekFirst: seek to the prefix itself when one is set, else to
the first key. -/
def seekFirst (s : Store) (pf : Option Str) : Option Nat :=
  match pf with
  | some P => seekIdx s P
  | none => nseekFirst s

/-- Iterator.seek: translate the key by prepending the prefix, then
reposition the native cursor. -/
def seek (s : Store) (pf : Option Str) (k : Str) : Option Nat :=
  match pf with
  | some P => seekIdx s (P ++ k)
  | none => seekIdx s k

end Iterator

/-- One pass of the iteration loop on the store suffix the cursor sees:
collect translated rows while the current entry passes the prefix test
(`Iterator.next` raises StopIteration at the first entry that fails it,
or when the native cursor goes invalid). -/
def collectPfx (pf : Option Str) : List (Str × Str) → List (Str × Str)
  | [] => []
  | e :: rest =>
    if pfxOkOpt pf e.1 then (stripPfx pf e.1, e.2) :: collectPfx pf rest else []

/-- Successive `Iterator.next` calls starting from index `i`: each call
returns the current row and advances, until `valid()` turns false and
StopIteration is raised. -/
def iterAllFrom (s : Store) (pf : Option Str) (i : Nat) : List (Str × Str) :=
  if h : i < s.length then
    if pfxOkOpt pf (s.get ⟨i, h⟩).1 then
      (stripPfx pf (s.get ⟨i, h⟩).1, (s.get ⟨i, h⟩).2) :: iterAllFrom s pf (i + 1)
    else []
  else []
termination_by s.length - i

/-- Successive `Iterator.next` calls from an arbitrary cursor state. -/
def iterAll (s : Store) (pf : Option Str) (pos : Option Nat) : List (Str × Str) :=
  match pos with
  | none => []
  | some i => iterAllFrom s pf i

/-! ## The prefix successor computation inside Iterator.seekLast

The source computes, via hexadecimal string manipulation
(`prefix.encode("hex")`, `hex(long(...) + 1)`, `rjust`, `decode("hex")`,
`rstrip("\x00")`), the byte string obtained by reading the prefix as a
big-endian integer, adding one, re-padding to the original byte length and
stripping trailing zero bytes. -/

/-- Value of the prefix as a big-endian integer:
`long(prefix.encode("hex"), 16)`. -/
def beToNat : Str → Nat
  | [] => 0
  | b :: bs => b * 256 ^ bs.length + beToNat bs

/-- Big-endian bytes of `n`, padded on the left to exactly `L` bytes:
`hex(n)[2:].rstrip("L").rjust(2*L, "0").decode("hex")`, valid for
`n < 256^L`. -/
def natToBytesPad (n L : Nat) : Str :=
  match L with
  | 0 => []
  | L + 1 => natToBytesPad (n / 256) L ++ [n % 256]

/-- Strip trailing zero bytes: `.rstrip("\x00")`. -/
def rstripZeros (s : Str) : Str := (s.reverse.dropWhile (· == 0)).reverse

/-- The successor of a prefix, as Iterator.seekLast computes it (only ever
invoked on a prefix that is not entirely 0xFF bytes). -/
def succPfx (P : Str) : Str := rstripZeros (natToBytesPad (beToNat P + 1) P.length)

namespace Iterator

/-- Iterator.seekLast: with no prefix, or an all-0xFF prefix, seek to the
absolute last key.  Otherwise seek to the computed successor of the prefix;
if that leaves the cursor valid step one back, else seek to the absolute
last key. -/
def seekLast (s : Store) : Option Str → Option Nat
  | none => nseekLast s
  | some P =>
    if P = List.replicate P.length 255 then nseekLast s
    else
      match seekIdx s (succPfx P) with
      | some i => nprev (some i)
      | none => nseekLast s

end Iterator

/-! ## Resource guard (src/leveldb/convenience.py, class _MemorySafety)

A guard owns one native reference and weakly tracks dependent guards.
`close()` swaps out both fields, closes every still-alive dependent, then
releases the captured reference if non-null.  The native reference is
identified by a number; the released-resource log is the observable.  A
dependent carries a liveness flag: a dead entry models a dependent already
dropped out of the weak dictionary before the close. -/

/-- Guard state: `ref` is the owned native reference (`none` once
released), `referrers` the weak dependent set (`none` once closed). -/
inductive GNode where
  | mk (ref : Option Nat) (referrers : Option (List (Bool × GNode)))

mutual

/-- Resources released by one `close()` call on this guard, in order:
every still-alive dependent's own close releases first, then the owned
reference. -/
def closedReleases : GNode → List Nat
  | .mk ref none => ref.toList
  | .mk ref (some deps) => depsReleases deps ++ ref.toList

/-- The `for referrer in referrers.valuerefs()` loop: dead weak references
are skipped, live dependents are closed. -/
def depsReleases : List (Bool × GNode) → List Nat
  | [] => []
  | (alive, g) :: rest => (if alive then closedReleases g else []) ++ depsReleases rest

end

/-- `_MemorySafety.close`: both fields are cleared unconditionally; the
second component is the log of native resources released by this call. -/
def closeG (g : GNode) : GNode × List Nat :=
  (GNode.mk none none, closedReleases g)

/-! ## Write batches (src/leveldb/convenience.py, _OpaqueWriteBatch and
WriteBatch) and the DBInterface facade

The batch's `_puts` dictionary is an association list with dictionary
update semantics and `_deletes` a duplicate-free list with set semantics.
`origin` is ghost provenance: the id of the handle whose `newBatch` created
the batch (`none` for the standalone WriteBatch).  The Python object
records no such field and no operation reads it — it only serves to state
which handle a batch came from. -/

/-- Batch state: pending puts, pending deletes, the `_private` flag, and
the ghost origin. -/
structure OWB where
  puts : List (Str × Str)
  deletes : List Str
  priv : Bool
  origin : Option Nat
deriving DecidableEq

/-- Dictionary assignment `d[key] = val`: overwrite in place or append. -/
def dictInsert : List (Str × Str) → Str → Str → List (Str × Str)
  | [], k, v => [(k, v)]
  | e :: rest, k, v => if e.1 = k then (k, v) :: rest else e :: dictInsert rest k v

/-- Dictionary lookup. -/
def dictGet : List (Str × Str) → Str → Option Str
  | [], _ => none
  | e :: rest, k => if e.1 = k then some e.2 else dictGet rest k

/-- Dictionary removal `d.pop(key, None)`. -/
def dictPop (l : List (Str × Str)) (k : Str) : List (Str × Str) :=
  l.filter (fun e => decide (e.1 ≠ k))

/-- Set removal `s.discard(key)`. -/
def setDiscard (l : List Str) (k : Str) : List Str :=
  l.filter (fun x => decide (x ≠ k))

/-- Set insertion `s.add(key)`. -/
def setAdd (l : List Str) (k : Str) : List Str :=
  if k ∈ l then l else l ++ [k]

/-- DBInterface.newBatch: a fresh opaque batch; `hid` is the ghost id of
the creating handle. -/
def newBatch (hid : Nat) : OWB := ⟨[], [], true, some hid⟩

namespace WriteBatch

/-- The standalone, user-constructible batch: `_private = False`. -/
def new : OWB := ⟨[], [], false, none⟩

/-- WriteBatch.put: drop any pending delete for the key, then record the
put. -/
def put (b : OWB) (k v : Str) : OWB :=
  { b with deletes := setDiscard b.deletes k, puts := dictInsert b.puts k v }

/-- WriteBatch.delete: drop any pending put for the key, then record the
delete. -/
def delete (b : OWB) (k : Str) : OWB :=
  { b with puts := dictPop b.puts k, deletes := setAdd b.deletes k }

end WriteBatch

/-- DBInterface state: ghost handle id, accumulated scope prefix
(`_prefix`), the `_allow_close` flag and the three per-handle default
option flags. -/
structure DBI where
  hid : Nat
  pfix : Option Str
  allowClose : Bool
  dsync : Bool
  dverify : Bool
  dfill : Bool
deriving DecidableEq

namespace DBInterface

/-- Key translation applied by every read/write: `prefix + key` when the
handle has a prefix. -/
def scopedKey (h : DBI) (k : Str) : Str :=
  match h.pfix with
  | none => k
  | some p => p ++ k

/-- DBInterface.putTo: batches whose `_private` flag is clear are rejected
before any mutation; otherwise the translated put is recorded. -/
def putTo (h : DBI) (b : OWB) (k v : Str) : Except String OWB :=
  if !b.priv then Except.error "batch not from DBInterface.newBatch"
  else
    Except.ok { b with deletes := setDiscard b.deletes (scopedKey h k),
                       puts := dictInsert b.puts (scopedKey h k) v }

/-- DBInterface.deleteFrom: same origin check, then the translated delete
is recorded. -/
def deleteFrom (h : DBI) (b : OWB) (k : Str) : Except String OWB :=
  if !b.priv then Except.error "batch not from DBInterface.newBatch"
  else
    Except.ok { b with puts := dictPop b.puts (scopedKey h k),
                       deletes := setAdd b.deletes (scopedKey h k) }

/-- DBInterface.write: when the handle has a prefix and the batch is the
public variant, build a translated copy (every put and delete key
re-prefixed into a fresh opaque batch) and forward that; otherwise forward
the batch itself.  First component: the batch handed to the engine; second
component: the caller's batch object after the call (the source only
rebinds its local variable, never the caller's object). -/
def write (h : DBI) (b : OWB) : OWB × OWB :=
  match h.pfix with
  | some p =>
    if !b.priv then
      (⟨b.puts.foldl (fun acc e => dictInsert acc (p ++ e.1) e.2) [],
        b.deletes.foldl (fun acc k => setAdd acc (p ++ k)) [],
        true, none⟩, b)
    else (b, b)
  | none => (b, b)

/-- DBInterface.close: delegate to the guard only when `_allow_close`. -/
def close (h : DBI) (g : GNode) : GNode × List Nat :=
  if h.allowClose then closeG g else (g, [])

/-- DBInterface.scope: share the guard and the impl, extend the prefix by
concatenation, `allow_close=False`, defaults inherited unless overridden. -/
def scope (h : DBI) (hid2 : Nat) (p : Str) (ds dv df : Option Bool) : DBI :=
  { hid := hid2
    pfix := some (match h.pfix with | none => p | some op => op ++ p)
    allowClose := false
    dsync := ds.getD h.dsync
    dverify := dv.getD h.dverify
    dfill := df.getD h.dfill }

/-- DBInterface.snapshot: a fresh owning handle (its own guard around the
new snapshot resource), sharing prefix and defaults unless overridden. -/
def snapshot (h : DBI) (hid2 : Nat) (ds dv df : Option Bool) : DBI :=
  { hid := hid2
    pfix := h.pfix
    allowClose := true
    dsync := ds.getD h.dsync
    dverify := dv.getD h.dverify
    dfill := df.getD h.dfill }

end DBInterface

/-- _makeDBFromImpl, used by the DB() and MemoryDB() constructors: an
owning handle with no prefix. -/
def makeDB (hid : Nat) (ds dv df : Bool) : DBI :=
  { hid := hid
    pfix := none
    allowClose := true
    dsync := ds
    dverify := dv
    dfill := df }

/-- One batch-mutating operation of claim C7: the standalone batch's own
put and delete, and the handle-mediated putTo and deleteFrom. -/
inductive BatchOp where
  | bput (k v : Str)
  | bdel (k : Str)
  | hput (h : DBI) (k v : Str)
  | hdel (h : DBI) (k : Str)

/-- Apply one operation; a rejected putTo/deleteFrom leaves the batch as it
was (the error is raised before any mutation). -/
def applyOp (b : OWB) : BatchOp → OWB
  | .bput k v => WriteBatch.put b k v
  | .bdel k => WriteBatch.delete b k
  | .hput h k v =>
    match DBInterface.putTo h b k v with
    | .ok b2 => b2
    | .error _ => b
  | .hdel h k =>
    match DBInterface.deleteFrom h b k with
    | .ok b2 => b2
    | .error _ => b

/-- A whole operation sequence, applied left to right. -/
def applyOps (b : OWB) (ops : List BatchOp) : OWB := ops.foldl applyOp b

/-- The put set and the delete set of a batch share no key. -/
def disjointB (b : OWB) : Bool := b.puts.all (fun e => decide (e.1 ∉ b.deletes))

/-! ## Iterator.range (src/leveldb/convenience.py, lines 242-255)

`range` seeks to the (translated) start key, on an exclusive start reads
`self.key()` — which delegates to the native cursor's key(), undefined
unless the cursor is valid (spec sections 4.2 and 6; modelled as an
error) — skips an exact match, then yields rows until the end bound
trips. -/

/-- The key the iterator's `seek` hands to the native cursor:
`prefix + key`. -/
def seekKey (pf : Option Str) (k : Str) : Str :=
  match pf with
  | none => k
  | some P => P ++ k

/-- Iterator.key on the bare cursor state: undefined (error) unless the
native cursor is valid; strips the prefix on the way out. -/
def keyRead (s : Store) (pf : Option Str) (pos : Option Nat) : Except Unit Str :=
  match pos with
  | none => Except.error ()
  | some i =>
    match s[i]? with
    | none => Except.error ()
    | some e => Except.ok (stripPfx pf e.1)

/-- The loop-break test of `Iterator.range`:
`row.key > end_key or (not end_inclusive and row.key == end_key)`. -/
def endBeyond (endK : Option Str) (ei : Bool) (k : Str) : Bool :=
  match endK with
  | none => false
  | some e => strLt e k || (!ei && decide (k = e))

/-- Iterator.range as a whole: returns the yielded row list, or an error
when it reads `key()` on an invalid cursor. -/
def rangeRows (s : Store) (pf : Option Str) (startK endK : Option Str) (si ei : Bool) :
    Except Unit (List (Str × Str)) :=
  match startK with
  | some st =>
    let p1 := Iterator.seek s pf st
    if !si then
      match keyRead s pf p1 with
      | Except.error e => Except.error e
      | Except.ok k =>
        let p2 := if k = st then nnext s p1 else p1
        Except.ok ((iterAll s pf p2).takeWhile (fun r => !endBeyond endK ei r.1))
    else
      Except.ok ((iterAll s pf p1).takeWhile (fun r => !endBeyond endK ei r.1))
  | none =>
    Except.ok ((iterAll s pf (Iterator.seekFirst s pf)).takeWhile
      (fun r => !endBeyond endK ei r.1))

/-- The start-bound test of claim C9 on the caller-visible (stripped)
key. -/
def startOk (startK : Option Str) (si : Bool) (k : Str) : Bool :=
  match startK with
  | none => true
  | some st => if si then !strLt k st else strLt st k

@[simp] theorem strLt_nil_right (a : Str) : strLt a [] = false := by
  cases a <;> rfl

@[simp] theorem strLt_nil_cons (b : Nat) (bs : Str) : strLt [] (b :: bs) = true := rfl

theorem strLt_cons (a b : Nat) (as bs : Str) :
    strLt (a :: as) (b :: bs) = (decide (a < b) || (decide (a = b) && strLt as bs)) := rfl

theorem strLt_irrefl (a : Str) : strLt a a = false := by
  induction a with
  | nil => rfl
  | cons x xs ih => simp [strLt_cons, ih]

theorem strLt_trans {a b c : Str} (hab : strLt a b = true) (hbc : strLt b c = true) :
    strLt a c = true := by
  induction a generalizing b c with
  | nil =>
    cases c with
    | nil => cases b <;> simp_all
    | cons y ys => simp
  | cons x xs ih =>
    cases b with
    | nil => simp_all
    | cons y ys =>
      cases c with
      | nil => simp_all
      | cons z zs =>
        simp only [strLt_cons, Bool.or_eq_true, Bool.and_eq_true, decide_eq_true_eq] at *
        rcases hab with h1 | ⟨rfl, h1⟩ <;> rcases hbc with h2 | ⟨rfl, h2⟩
        · exact Or.inl (Nat.lt_trans h1 h2)
        · exact Or.inl h1
        · exact Or.inl h2
        · exact Or.inr ⟨rfl, ih h1 h2⟩

theorem strLt_trichotomy (a b : Str) :
    strLt a b = true ∨ a = b ∨ strLt b a = true := by
  induction a generalizing b with
  | nil => cases b <;> simp
  | cons x xs ih =>
    cases b with
    | nil => simp
    | cons y ys =>
      rcases Nat.lt_trichotomy x y with h | h | h
      · exact Or.inl (by simp [strLt_cons, h])
      · subst h
        rcases ih ys with h2 | h2 | h2
        · exact Or.inl (by simp [strLt_cons, h2])
        · exact Or.inr (Or.inl (by rw [h2]))
        · exact Or.inr (Or.inr (by simp [strLt_cons, h2]))
      · exact Or.inr (Or.inr (by simp [strLt_cons, h]))

theorem strLt_asymm {a b : Str} (h : strLt a b = true) : strLt b a = false := by
  by_contra hc
  have hba : strLt b a = true := by
    cases hx : strLt b a
    · exact absurd hx hc
    · rfl
  have := strLt_trans h hba
  rw [strLt_irrefl] at this
  exact Bool.false_ne_true this

theorem eq_of_not_lt_not_lt {a b : Str} (h1 : strLt a b = false) (h2 : strLt b a = false) :
    a = b := by
  rcases strLt_trichotomy a b with h | h | h
  · rw [h] at h1; exact absurd h1 (by simp)
  · exact h
  · rw [h] at h2; exact absurd h2 (by simp)

theorem strLt_append_same (P a b : Str) : strLt (P ++ a) (P ++ b) = strLt a b := by
  induction P with
  | nil => simp
  | cons x xs ih => simp [strLt_cons, ih]

/-- If `a` is not below `b` and `b` is not below `c` then `a` is not below `c`
(contrapositive transitivity for the reflexive order). -/
theorem not_lt_trans {a b c : Str} (h1 : strLt a b = false) (h2 : strLt b c = false) :
    strLt a c = false := by
  rcases strLt_trichotomy a b with hab | rfl | hab
  · rw [hab] at h1; cases h1
  · exact h2
  · rcases strLt_trichotomy b c with hbc | rfl | hbc
    · rw [hbc] at h2; cases h2
    · exact strLt_asymm hab
    · exact strLt_asymm (strLt_trans hbc hab)

theorem not_lt_of_lt_of_not_lt {a b c : Str} (h1 : strLt a b = true) (h2 : strLt c b = false) :
    strLt c a = false := by
  cases hca : strLt c a with
  | false => rfl
  | true => exact absurd (strLt_trans hca h1) (by simp [h2])

@[simp] theorem pfxOk_nil_left (k : Str) : pfxOk [] k = true := by simp [pfxOk]

@[simp] theorem pfxOk_cons_nil (p : Nat) (P : Str) : pfxOk (p :: P) [] = false := by
  simp [pfxOk]

theorem pfxOk_cons (p x : Nat) (P k : Str) :
    pfxOk (p :: P) (x :: k) = (decide (x = p) && pfxOk P k) := by
  simp only [pfxOk, List.length_cons, List.take_succ_cons]
  by_cases h : x = p <;> simp [h]

theorem pfxOk_iff_exists {P k : Str} : pfxOk P k = true ↔ ∃ t, k = P ++ t := by
  induction P generalizing k with
  | nil =>
    simp only [pfxOk_nil_left, List.nil_append, true_iff]
    exact ⟨k, rfl⟩
  | cons p P ih =>
    cases k with
    | nil =>
      simp only [pfxOk_cons_nil, Bool.false_eq_true, false_iff]
      rintro ⟨t, ht⟩
      exact absurd ht (by simp)
    | cons x xs =>
      rw [pfxOk_cons]
      simp only [Bool.and_eq_true, decide_eq_true_eq, ih]
      constructor
      · rintro ⟨rfl, t, rfl⟩; exact ⟨t, rfl⟩
      · rintro ⟨t, ht⟩
        rw [List.cons_append] at ht
        cases ht
        exact ⟨rfl, t, rfl⟩

@[simp] theorem pfxOk_append (P t : Str) : pfxOk P (P ++ t) = true :=
  pfxOk_iff_exists.mpr ⟨t, rfl⟩

/-- A key carrying prefix `P` is never strictly below `P`. -/
theorem pfxOk_not_lt {P k : Str} (h : pfxOk P k = true) : strLt k P = false := by
  rcases pfxOk_iff_exists.mp h with ⟨t, rfl⟩
  have h2 := strLt_append_same P t []
  rw [List.append_nil] at h2
  rw [h2]
  exact strLt_nil_right t

/-- Keys sharing a prefix form an interval: anything at or above `P` and
strictly below some `P`-prefixed key is itself `P`-prefixed.  No byte bounds
are needed for this direction. -/
theorem pfx_between {P c k : Str} (hc : pfxOk P c = true)
    (hk1 : strLt k P = false) (hk2 : strLt k c = true) : pfxOk P k = true := by
  induction P generalizing c k with
  | nil => simp
  | cons p P ih =>
    rcases pfxOk_iff_exists.mp hc with ⟨t, rfl⟩
    cases k with
    | nil => simp at hk1
    | cons x xs =>
      rw [List.cons_append] at hk2
      rw [strLt_cons] at hk1 hk2
      simp only [Bool.or_eq_false_iff, Bool.or_eq_true, Bool.and_eq_false_iff,
        Bool.and_eq_true, decide_eq_true_eq, decide_eq_false_iff_not] at hk1 hk2
      rcases hk2 with h | ⟨rfl, h⟩
      · exact absurd h hk1.1
      · rcases hk1.2 with h2 | h2
        · exact absurd rfl h2
        · have hx : pfxOk P xs = true := ih (pfxOk_append P t) h2 h
          rcases pfxOk_iff_exists.mp hx with ⟨t2, rfl⟩
          exact pfxOk_append _ t2

theorem seekIdx_none {s : Store} {k : Str} (h : seekIdx s k = none) :
    ∀ e ∈ s, strLt e.1 k = true := by
  induction s with
  | nil => intro e he; cases he
  | cons a rest ih =>
    intro e he
    rw [seekIdx] at h
    by_cases ha : strLt a.1 k = true
    · rw [if_pos ha] at h
      have hrest : seekIdx rest k = none := by
        cases hr : seekIdx rest k with
        | none => rfl
        | some j => simp [hr] at h
      rcases List.mem_cons.mp he with rfl | he2
      · exact ha
      · exact ih hrest e he2
    · rw [if_neg ha] at h; cases h

theorem seekIdx_some {s : Store} {k : Str} {i : Nat} (h : seekIdx s k = some i) :
    ∃ e, s[i]? = some e ∧ strLt e.1 k = false ∧
      ∀ j, j < i → ∀ e2, s[j]? = some e2 → strLt e2.1 k = true := by
  induction s generalizing i with
  | nil => cases h
  | cons a rest ih =>
    rw [seekIdx] at h
    by_cases ha : strLt a.1 k = true
    · rw [if_pos ha] at h
      cases hr : seekIdx rest k with
      | none => rw [hr] at h; cases h
      | some j =>
        rw [hr] at h
        have h2 : j + 1 = i := by simpa using h
        subst h2
        rcases ih hr with ⟨e, he, hlt, hbefore⟩
        refine ⟨e, by simpa using he, hlt, ?_⟩
        intro m hm e2 he2
        cases m with
        | zero => simp at he2; rw [← he2]; exact ha
        | succ m0 =>
          simp only [List.getElem?_cons_succ] at he2
          exact hbefore m0 (by omega) e2 he2
    · rw [if_neg ha] at h
      simp only [Option.some.injEq] at h
      subst h
      refine ⟨a, by simp, ?_, ?_⟩
      · cases hb : strLt a.1 k
        · rfl
        · exact absurd hb ha
      intro j hj
      exact absurd hj (by omega)

theorem seekIdx_lt_length {s : Store} {k : Str} {i : Nat} (h : seekIdx s k = some i) :
    i < s.length := by
  rcases seekIdx_some h with ⟨e, he, -, -⟩
  exact (List.getElem?_eq_some_iff.mp he).1

theorem iterAllFrom_eq_collect (s : Store) (pf : Option Str) (i : Nat) :
    iterAllFrom s pf i = collectPfx pf (s.drop i) := by
  have key : ∀ n j, s.length - j ≤ n → iterAllFrom s pf j = collectPfx pf (s.drop j) := by
    intro n
    induction n with
    | zero =>
      intro j hj
      have hle : s.length ≤ j := by omega
      rw [iterAllFrom, dif_neg (by omega), List.drop_eq_nil_of_le hle]
      rfl
    | succ n ih =>
      intro j hj
      by_cases hlt : j < s.length
      · rw [iterAllFrom, dif_pos hlt, List.drop_eq_getElem_cons hlt, collectPfx]
        simp only [List.get_eq_getElem]
        by_cases hp : pfxOkOpt pf (s[j]).1 = true
        · rw [if_pos hp, if_pos hp, ih (j + 1) (by omega)]
        · rw [if_neg hp, if_neg hp]
      · have hle : s.length ≤ j := by omega
        rw [iterAllFrom, dif_neg hlt, List.drop_eq_nil_of_le hle]
        rfl
  exact key (s.length - i) i (Nat.le_refl _)

theorem seekIdx_take {s : Store} {k : Str} {i : Nat} (h : seekIdx s k = some i) :
    ∀ e ∈ s.take i, strLt e.1 k = true := by
  induction s generalizing i with
  | nil => intro e he; simp at he
  | cons a rest ih =>
    rw [seekIdx] at h
    by_cases ha : strLt a.1 k = true
    · rw [if_pos ha] at h
      cases hr : seekIdx rest k with
      | none => rw [hr] at h; cases h
      | some j =>
        rw [hr] at h
        have h2 : j + 1 = i := by simpa using h
        subst h2
        intro e he
        rw [List.take_succ_cons] at he
        rcases List.mem_cons.mp he with rfl | he2
        · exact ha
        · exact ih hr e he2
    · rw [if_neg ha] at h
      have h0 : i = 0 := by simpa using h.symm
      subst h0
      intro e he
      simp at he

/-- Everything lexicographically above something at or above `P` is still at
or above `P`. -/
theorem not_lt_of_above {x e P : Str} (h1 : strLt x e = true) (h2 : strLt x P = false) :
    strLt e P = false := by
  cases hb : strLt e P
  · rfl
  · exact absurd (strLt_trans h1 hb) (by simp [h2])

/-- On a sorted run whose every key is at or above `P`, the iteration loop
(stop at the first prefix mismatch) collects exactly the `P`-prefixed
entries: once one key fails the prefix test, prefix contiguity says every
later key fails it too. -/
theorem collectPfx_some_eq_filter (P : Str) (l : List (Str × Str))
    (hs : List.Pairwise (fun a b => strLt a.1 b.1 = true) l)
    (hge : ∀ e ∈ l, strLt e.1 P = false) :
    collectPfx (some P) l
      = (l.filter (fun e => pfxOk P e.1)).map (fun e => (e.1.drop P.length, e.2)) := by
  induction l with
  | nil => rfl
  | cons a rest ih =>
    rcases List.pairwise_cons.mp hs with ⟨hhead, hrest⟩
    rw [collectPfx]
    by_cases hp : pfxOkOpt (some P) a.1 = true
    · rw [if_pos hp, List.filter_cons_of_pos (by exact hp), List.map_cons]
      have hge2 : ∀ e ∈ rest, strLt e.1 P = false := fun e he =>
        not_lt_of_above (hhead e he) (hge a (List.mem_cons_self a rest))
      rw [ih hrest hge2]
      rfl
    · rw [if_neg hp]
      have hf : (a :: rest).filter (fun e => pfxOk P e.1) = [] := by
        rw [List.filter_eq_nil_iff]
        intro e he hpe
        rcases List.mem_cons.mp he with rfl | he2
        · exact hp hpe
        · exact hp (pfx_between hpe (hge a (List.mem_cons_self a rest)) (hhead e he2))
      rw [hf]
      rfl

/-- Claim C1.  An Iterator with prefix `P`, after `seekFirst()`, yields via
successive `next()` calls exactly the rows whose unscoped key starts with
`P`, with `P` stripped from each returned key, in the store's ascending
byte order, and stops (StopIteration) exactly when that list is exhausted:
the sequence of yielded rows equals the `P`-filtered, `P`-stripped store. -/
theorem iterator_yields_prefix_rows (s : Store) (P : Str) (hs : sortedStore s) :
    iterAll s (some P) (Iterator.seekFirst s (some P))
      = (s.filter (fun e => pfxOk P e.1)).map (fun e => (e.1.drop P.length, e.2)) := by
  rw [Iterator.seekFirst]
  cases hseek : seekIdx s P with
  | none =>
    have hall := seekIdx_none hseek
    have hf : s.filter (fun e => pfxOk P e.1) = [] := by
      rw [List.filter_eq_nil_iff]
      intro e he hp
      have h1 := pfxOk_not_lt hp
      rw [hall e he] at h1
      cases h1
    rw [hf]
    rfl
  | some i =>
    rw [iterAll, iterAllFrom_eq_collect]
    have hi : i < s.length := seekIdx_lt_length hseek
    rcases seekIdx_some hseek with ⟨e0, he0, hlt0, -⟩
    have he0i : e0 = s[i] := by
      rw [List.getElem?_eq_getElem hi] at he0
      exact (Option.some.inj he0).symm
    subst he0i
    have hdrop : s.drop i = s[i] :: s.drop (i + 1) := List.drop_eq_getElem_cons hi
    have hs_drop : List.Pairwise (fun a b => strLt a.1 b.1 = true) (s.drop i) :=
      hs.sublist (List.drop_sublist i s)
    have hge : ∀ e ∈ s.drop i, strLt e.1 P = false := by
      rw [hdrop]
      rw [hdrop] at hs_drop
      intro e he
      rcases List.mem_cons.mp he with rfl | he2
      · exact hlt0
      · exact not_lt_of_above ((List.pairwise_cons.mp hs_drop).1 e he2) hlt0
    rw [collectPfx_some_eq_filter P (s.drop i) hs_drop hge]
    have hsplit : s.filter (fun e => pfxOk P e.1)
        = (s.take i).filter (fun e => pfxOk P e.1)
          ++ (s.drop i).filter (fun e => pfxOk P e.1) := by
      rw [← List.filter_append, List.take_append_drop]
    have htake : (s.take i).filter (fun e => pfxOk P e.1) = [] := by
      rw [List.filter_eq_nil_iff]
      intro e he hp
      have h1 := pfxOk_not_lt hp
      rw [seekIdx_take hseek e he] at h1
      cases h1
    rw [hsplit, htake, List.nil_append]

/-- Witness for C1 on a concrete store: keys 0x00, 0x0102, 0x0103, 0x02
with prefix 0x01 yield the two middle rows with the prefix byte stripped. -/
theorem iterator_yields_prefix_rows_witness :
    iterAll [([0], [10]), ([1, 2], [11]), ([1, 3], [12]), ([2], [13])] (some [1])
        (Iterator.seekFirst [([0], [10]), ([1, 2], [11]), ([1, 3], [12]), ([2], [13])] (some [1]))
      = [([2], [11]), ([3], [12])] := by
  rw [iterator_yields_prefix_rows _ _ (by unfold sortedStore; decide)]
  rfl

theorem beToNat_append (x y : Str) :
    beToNat (x ++ y) = beToNat x * 256 ^ y.length + beToNat y := by
  induction x with
  | nil => simp [beToNat]
  | cons a as ih =>
    simp only [List.cons_append, beToNat, List.append_eq, ih, List.length_append, pow_add]
    ring

theorem beToNat_replicate_255 (m : Nat) : beToNat (List.replicate m 255) + 1 = 256 ^ m := by
  induction m with
  | zero => rfl
  | succ n ih =>
    rw [List.replicate_succ, beToNat, List.length_replicate, pow_succ]
    omega

theorem beToNat_replicate_0 (m : Nat) : beToNat (List.replicate m 0) = 0 := by
  induction m with
  | zero => rfl
  | succ n ih => rw [List.replicate_succ, beToNat, ih]; ring

/-- Round trip: rendering the big-endian value of a byte string back at its
own length reproduces it. -/
theorem natToBytesPad_beToNat (s : Str) (h : ∀ b ∈ s, b < 256) :
    natToBytesPad (beToNat s) s.length = s := by
  induction s using List.reverseRecOn with
  | nil => rfl
  | append_singleton t c ih =>
    have hc : c < 256 := h c (by simp)
    have ht : ∀ b ∈ t, b < 256 := fun b hb => h b (by simp [hb])
    have hval : beToNat (t ++ [c]) = beToNat t * 256 + c := by
      rw [beToNat_append]
      simp [beToNat]
    rw [List.length_append, List.length_singleton, natToBytesPad, hval]
    have hdiv : (beToNat t * 256 + c) / 256 = beToNat t := by omega
    have hmod : (beToNat t * 256 + c) % 256 = c := by omega
    rw [hdiv, hmod, ih ht]

theorem rstripZeros_append_replicate (x : Str) (m : Nat) :
    rstripZeros (x ++ List.replicate m 0) = rstripZeros x := by
  rw [rstripZeros, rstripZeros, List.reverse_append, List.reverse_replicate]
  congr 1
  induction m with
  | zero => rfl
  | succ n ih =>
    rw [List.replicate_succ, List.cons_append, List.dropWhile_cons]
    simp

theorem rstripZeros_snoc (x : Str) (c : Nat) (hc : c ≠ 0) :
    rstripZeros (x ++ [c]) = x ++ [c] := by
  rw [rstripZeros, List.reverse_append]
  simp only [List.reverse_singleton, List.singleton_append, List.dropWhile_cons]
  rw [if_neg (by simpa using hc)]
  simp

/-- Every byte string is either entirely 0xFF bytes or splits as a stem,
one byte below 0xFF, and a trailing run of 0xFF bytes. -/
theorem allFF_or_decomp (P : Str) :
    P = List.replicate P.length 255 ∨
      ∃ A b m, b ≠ 255 ∧ P = A ++ b :: List.replicate m 255 := by
  induction P with
  | nil => left; rfl
  | cons p T ih =>
    rcases ih with h | ⟨A, b, m, hb, h⟩
    · by_cases hp : p = 255
      · left
        subst hp
        rw [List.length_cons, List.replicate_succ, ← h]
      · right
        refine ⟨[], p, T.length, hp, ?_⟩
        rw [List.nil_append]
        exact congrArg (p :: ·) h
    · right
      exact ⟨p :: A, b, m, hb, by rw [h, List.cons_append]⟩

/-- The successor computation in closed form: bump the byte before the
trailing 0xFF run and drop that run. -/
theorem succPfx_decomp (A : Str) (b m : Nat) (hA : ∀ x ∈ A, x < 256) (hb : b < 255) :
    succPfx (A ++ b :: List.replicate m 255) = A ++ [b + 1] := by
  have hval : beToNat (A ++ b :: List.replicate m 255) + 1
      = beToNat (A ++ (b + 1) :: List.replicate m 0) := by
    rw [beToNat_append, beToNat_append, beToNat, beToNat, beToNat_replicate_0,
      List.length_cons, List.length_cons, List.length_replicate, List.length_replicate,
      Nat.succ_mul]
    have hff := beToNat_replicate_255 m
    omega
  have hlen : (A ++ b :: List.replicate m 255).length
      = (A ++ (b + 1) :: List.replicate m 0).length := by simp
  have hbytes : ∀ x ∈ A ++ (b + 1) :: List.replicate m 0, x < 256 := by
    intro x hx
    rcases List.mem_append.mp hx with hx | hx
    · exact hA x hx
    · rcases List.mem_cons.mp hx with rfl | hx
      · omega
      · rw [List.eq_of_mem_replicate hx]; omega
  rw [succPfx, hval, hlen, natToBytesPad_beToNat _ hbytes]
  have hsplit : A ++ (b + 1) :: List.replicate m 0 = (A ++ [b + 1]) ++ List.replicate m 0 := by
    simp
  rw [hsplit, rstripZeros_append_replicate, rstripZeros_snoc _ _ (by omega)]

/-- Every key extending the prefix sits strictly below the computed
successor. -/
theorem succ_upper (A : Str) (b m : Nat) (t : Str) :
    strLt ((A ++ b :: List.replicate m 255) ++ t) (A ++ [b + 1]) = true := by
  rw [List.append_assoc, List.cons_append, strLt_append_same, strLt_cons]
  simp

/-- A byte string not below an all-0xFF string starts with it (bytes being
below 256, no byte can exceed 0xFF). -/
theorem pfx_replicate_255 (m : Nat) (k : Str) (hk : ∀ x ∈ k, x < 256)
    (h : strLt k (List.replicate m 255) = false) :
    pfxOk (List.replicate m 255) k = true := by
  induction m generalizing k with
  | zero => simp
  | succ n ih =>
    cases k with
    | nil => rw [List.replicate_succ] at h; simp at h
    | cons c k2 =>
      rw [List.replicate_succ] at h ⊢
      rw [strLt_cons] at h
      have hc : c < 256 := hk c (by simp)
      simp only [Bool.or_eq_false_iff, Bool.and_eq_false_iff, decide_eq_false_iff_not] at h
      have hc255 : c = 255 := by omega
      subst hc255
      rcases h.2 with h2 | h2
      · exact absurd rfl h2
      · rw [pfxOk_cons]
        simp [ih k2 (fun x hx => hk x (by simp [hx])) h2]

/-- Interval characterisation of the successor: any key with all bytes below
256 that is at or above the prefix and strictly below the computed
successor carries the prefix. -/
theorem pfx_of_between_succ (A : Str) (b m : Nat) (k : Str) (hk : ∀ x ∈ k, x < 256)
    (h1 : strLt k (A ++ b :: List.replicate m 255) = false)
    (h2 : strLt k (A ++ [b + 1]) = true) :
    pfxOk (A ++ b :: List.replicate m 255) k = true := by
  induction A generalizing k with
  | nil =>
    cases k with
    | nil => simp at h1
    | cons c k2 =>
      simp only [List.nil_append] at h1 h2 ⊢
      rw [strLt_cons] at h1 h2
      rw [strLt_nil_right] at h2
      simp only [Bool.and_false, Bool.or_false, decide_eq_true_eq] at h2
      simp only [Bool.or_eq_false_iff, Bool.and_eq_false_iff, decide_eq_false_iff_not] at h1
      have hcb : c = b := by omega
      subst hcb
      rcases h1.2 with h3 | h3
      · exact absurd rfl h3
      · rw [pfxOk_cons]
        simp [pfx_replicate_255 m k2 (fun x hx => hk x (by simp [hx])) h3]
  | cons a A2 ih =>
    cases k with
    | nil => simp at h1
    | cons c k2 =>
      rw [List.cons_append] at h1 h2 ⊢
      rw [strLt_cons] at h1 h2
      simp only [Bool.or_eq_false_iff, Bool.and_eq_false_iff, decide_eq_false_iff_not] at h1
      simp only [Bool.or_eq_true, Bool.and_eq_true, decide_eq_true_eq] at h2
      rcases h2 with h | ⟨hca, h⟩
      · exact absurd h h1.1
      · subst hca
        rcases h1.2 with h3 | h3
        · exact absurd rfl h3
        · rw [pfxOk_cons]
          simp [ih k2 (fun x hx => hk x (by simp [hx])) h3 h]

/-- Claim C4.  The successor computation treats the prefix as a big-endian
integer, adds one, re-pads to the original length and strips trailing zero
bytes (that is the definition of `succPfx`, read off the hex manipulation
in the source): for prefix 0x0102 it yields 0x0103, and for any prefix made
entirely of 0xFF bytes no successor is computed — `seekLast` falls back to
seeking the store's absolute last key. -/
theorem succPfx_spec :
    succPfx [1, 2] = [1, 3] ∧
      ∀ (P : Str) (s : Store), P = List.replicate P.length 255 →
        Iterator.seekLast s (some P) = nseekLast s := by
  refine ⟨by decide, ?_⟩
  intro P s hP
  rw [Iterator.seekLast, if_pos hP]

/-- Witness for C4 at prefix 0xFFFF on a one-entry store. -/
theorem succPfx_spec_witness :
    succPfx [1, 2] = [1, 3] ∧
      Iterator.seekLast [([255, 255, 7], [1])] (some [255, 255])
        = nseekLast [([255, 255, 7], [1])] :=
  ⟨succPfx_spec.1, succPfx_spec.2 [255, 255] [([255, 255, 7], [1])] (by decide)⟩

theorem Iterator.valid_none (s : Store) (pf : Option Str) :
    Iterator.valid s pf none = false := rfl

theorem Iterator.valid_some (s : Store) (pf : Option Str) (i : Nat) (e : Str × Str)
    (he : s[i]? = some e) : Iterator.valid s pf (some i) = pfxOkOpt pf e.1 := by
  show (match s[i]? with
    | none => false
    | some e2 => pfxOkOpt pf e2.1) = pfxOkOpt pf e.1
  rw [he]

theorem sorted_getElem_lt {s : Store} (hs : sortedStore s) {i j : Nat}
    (hij : i < j) (hj : j < s.length) :
    strLt (s[i]).1 (s[j]).1 = true := by
  have hi : i < s.length := Nat.lt_trans hij hj
  exact (List.pairwise_iff_getElem.mp hs) i j hi hj hij

/-- In a sorted store the last entry is not below any entry. -/
theorem last_not_lt {s : Store} (hs : sortedStore s) (hne : 0 < s.length)
    {e : Str × Str} (he : e ∈ s) :
    strLt (s[s.length - 1]).1 e.1 = false := by
  rcases List.mem_iff_getElem.mp he with ⟨i, hi, rfl⟩
  rcases Nat.lt_or_ge i (s.length - 1) with h | h
  · exact strLt_asymm (sorted_getElem_lt hs h (by omega))
  · have : i = s.length - 1 := by omega
    subst this
    exact strLt_irrefl _

/-- Any entry strictly below a bound that entry `j` is not below sits at an
index strictly below `j`. -/
theorem idx_lt_of_lt_bound {s : Store} (hs : sortedStore s) {j : Nat}
    (hj : j < s.length) {S : Str} (hSj : strLt (s[j]).1 S = false)
    {i : Nat} (hi : i < s.length) (hlt : strLt (s[i]).1 S = true) : i < j := by
  by_contra hge
  rcases Nat.lt_or_ge j i with h | h
  · have hji := sorted_getElem_lt hs h hi
    have := not_lt_of_above hji hSj
    rw [hlt] at this
    cases this
  · have : i = j := by omega
    subst this
    rw [hSj] at hlt
    cases hlt

theorem getElem_mem_store {s : Store} {i : Nat} (h : i < s.length) : s[i] ∈ s :=
  List.getElem_mem h

theorem mem_store_iff {s : Store} {e : Str × Str} :
    e ∈ s ↔ ∃ i, ∃ h : i < s.length, s[i] = e := by
  rw [List.mem_iff_getElem]

theorem nseekLast_nil : nseekLast [] = none := rfl

theorem nseekLast_of_pos {s : Store} (h : 0 < s.length) :
    nseekLast s = some (s.length - 1) := by
  cases s with
  | nil => simp at h
  | cons a t => rfl

/-- Assembling the two C3 conclusions once the landing index is known to be
below every `P`-key's position and `P`-prefixed whenever a `P`-key exists. -/
theorem seekLast_conclusion {s : Store} {P : Str} {idx : Nat}
    (hidx : idx < s.length)
    (hsl : Iterator.seekLast s (some P) = some idx)
    (hmaxP : ∀ e ∈ s, pfxOk P e.1 = true → strLt (s[idx]).1 e.1 = false)
    (hpfx_of : (∃ e ∈ s, pfxOk P e.1 = true) → pfxOk P (s[idx]).1 = true) :
    ((∃ e ∈ s, pfxOk P e.1 = true) →
        ∃ i, Iterator.seekLast s (some P) = some i ∧
          ∃ h : i < s.length, pfxOk P (s.get ⟨i, h⟩).1 = true ∧
            (∀ e ∈ s, pfxOk P e.1 = true → strLt (s.get ⟨i, h⟩).1 e.1 = false) ∧
            Iterator.valid s (some P) (Iterator.seekLast s (some P)) = true) ∧
      ((∀ e ∈ s, pfxOk P e.1 = false) →
        Iterator.valid s (some P) (Iterator.seekLast s (some P)) = false) := by
  have hvalid_eq : Iterator.valid s (some P) (some idx) = pfxOk P (s[idx]).1 :=
    Iterator.valid_some s (some P) idx (s[idx]) (List.getElem?_eq_getElem hidx)
  have hget : s.get ⟨idx, hidx⟩ = s[idx] := rfl
  constructor
  · intro hex
    refine ⟨idx, hsl, hidx, ?_, ?_, ?_⟩
    · rw [hget]; exact hpfx_of hex
    · intro e he hpe; rw [hget]; exact hmaxP e he hpe
    · rw [hsl, hvalid_eq]; exact hpfx_of hex
  · intro hnone
    rw [hsl, hvalid_eq]
    exact hnone _ (getElem_mem_store hidx)

/-- Claim C3.  For a sorted store (bytes in range) and a non-empty prefix
`P` (bytes in range): after `seekLast()`, if at least one stored key starts
with `P` the cursor is positioned on the maximum key starting with `P` and
`valid()` is true; if no stored key starts with `P`, `valid()` is false. -/
theorem seekLast_max_pfx (s : Store) (P : Str) (hs : sortedStore s)
    (hkb : ∀ e ∈ s, ∀ x ∈ e.1, x < 256) (hPb : ∀ x ∈ P, x < 256) (hP : P ≠ []) :
    ((∃ e ∈ s, pfxOk P e.1 = true) →
        ∃ i, Iterator.seekLast s (some P) = some i ∧
          ∃ h : i < s.length, pfxOk P (s.get ⟨i, h⟩).1 = true ∧
            (∀ e ∈ s, pfxOk P e.1 = true → strLt (s.get ⟨i, h⟩).1 e.1 = false) ∧
            Iterator.valid s (some P) (Iterator.seekLast s (some P)) = true) ∧
      ((∀ e ∈ s, pfxOk P e.1 = false) →
        Iterator.valid s (some P) (Iterator.seekLast s (some P)) = false) := by
  by_cases hall : P = List.replicate P.length 255
  · -- all-0xFF prefix: seekLast goes to the absolute last key
    have hsl0 : Iterator.seekLast s (some P) = nseekLast s := by
      rw [Iterator.seekLast, if_pos hall]
    rcases Nat.eq_zero_or_pos s.length with hlen | hlen
    · have hsnil : s = [] := List.length_eq_zero.mp hlen
      subst hsnil
      refine ⟨fun hex => ?_, fun _ => ?_⟩
      · rcases hex with ⟨e, he, -⟩
        cases he
      · rw [hsl0, nseekLast_nil]
        rfl
    · have hidx : s.length - 1 < s.length := by omega
      have hsl : Iterator.seekLast s (some P) = some (s.length - 1) := by
        rw [hsl0, nseekLast_of_pos hlen]
      have hmax : ∀ e ∈ s, strLt (s[s.length - 1]).1 e.1 = false := fun e he =>
        last_not_lt hs hlen he
      refine seekLast_conclusion hidx hsl (fun e he _ => hmax e he) ?_
      rintro ⟨e0, he0, hpe0⟩
      have h1 : strLt (s[s.length - 1]).1 P = false :=
        not_lt_trans (hmax e0 he0) (pfxOk_not_lt hpe0)
      rw [hall] at h1
      have h2 := pfx_replicate_255 P.length (s[s.length - 1]).1
        (hkb _ (getElem_mem_store hidx)) h1
      rw [hall]
      exact h2
  · -- a successor exists
    rcases allFF_or_decomp P with h | ⟨A, b, m, hb255, hPdec⟩
    · exact absurd h hall
    have hbA : ∀ x ∈ A, x < 256 := fun x hx =>
      hPb x (by rw [hPdec]; exact List.mem_append.mpr (Or.inl hx))
    have hbb : b < 256 := hPb b (by rw [hPdec]; simp)
    have hblt : b < 255 := by omega
    have hsucc : succPfx P = A ++ [b + 1] := by
      rw [hPdec]; exact succPfx_decomp A b m hbA hblt
    have hF1 : ∀ k, pfxOk P k = true → strLt k (succPfx P) = true := by
      intro k hk
      rcases pfxOk_iff_exists.mp hk with ⟨t, rfl⟩
      rw [hsucc, hPdec]
      exact succ_upper A b m t
    have hF2 : ∀ k, (∀ x ∈ k, x < 256) → strLt k P = false →
        strLt k (succPfx P) = true → pfxOk P k = true := by
      intro k hkb2 h1 h2
      rw [hsucc] at h2
      rw [hPdec] at h1 ⊢
      exact pfx_of_between_succ A b m k hkb2 h1 h2
    have hsl_eq : Iterator.seekLast s (some P)
        = (match seekIdx s (succPfx P) with
            | some i => nprev (some i)
            | none => nseekLast s) := by
      rw [Iterator.seekLast, if_neg hall]
    cases hseek : seekIdx s (succPfx P) with
    | none =>
      -- nothing at or after the successor: fall back to the absolute last key
      have hsl0 : Iterator.seekLast s (some P) = nseekLast s := by rw [hsl_eq, hseek]
      have hallS := seekIdx_none hseek
      rcases Nat.eq_zero_or_pos s.length with hlen | hlen
      · have hsnil : s = [] := List.length_eq_zero.mp hlen
        subst hsnil
        refine ⟨fun hex => ?_, fun _ => ?_⟩
        · rcases hex with ⟨e, he, -⟩
          cases he
        · rw [hsl0, nseekLast_nil]
          rfl
      · have hidx : s.length - 1 < s.length := by omega
        have hsl : Iterator.seekLast s (some P) = some (s.length - 1) := by
          rw [hsl0, nseekLast_of_pos hlen]
        have hmax : ∀ e ∈ s, strLt (s[s.length - 1]).1 e.1 = false := fun e he =>
          last_not_lt hs hlen he
        refine seekLast_conclusion hidx hsl (fun e he _ => hmax e he) ?_
        rintro ⟨e0, he0, hpe0⟩
        have h1 : strLt (s[s.length - 1]).1 P = false :=
          not_lt_trans (hmax e0 he0) (pfxOk_not_lt hpe0)
        exact hF2 _ (hkb _ (getElem_mem_store hidx)) h1
          (hallS _ (getElem_mem_store hidx))
    | some j =>
      have hj : j < s.length := seekIdx_lt_length hseek
      rcases seekIdx_some hseek with ⟨ej, hej, hSj0, -⟩
      have hejj : ej = s[j] := by
        rw [List.getElem?_eq_getElem hj] at hej
        exact (Option.some.inj hej).symm
      have hSj : strLt (s[j]).1 (succPfx P) = false := by rw [← hejj]; exact hSj0
      rcases Nat.eq_zero_or_pos j with hj0 | hj0
      · -- the successor seek landed on the very first entry: stepping back
        -- leaves the cursor invalid, and indeed no key carries the prefix
        subst hj0
        have hsl : Iterator.seekLast s (some P) = none := by
          rw [hsl_eq, hseek]; rfl
        constructor
        · rintro ⟨e0, he0, hpe0⟩
          exfalso
          rcases mem_store_iff.mp he0 with ⟨i0, hi0, he0eq⟩
          have hlt : strLt (s[i0]).1 (succPfx P) = true := by
            rw [he0eq]; exact hF1 e0.1 hpe0
          have := idx_lt_of_lt_bound hs hj hSj hi0 hlt
          omega
        · intro _
          rw [hsl]
          rfl
      · -- step back one: the entry before the successor position
        have hidx : j - 1 < s.length := by omega
        have hsl : Iterator.seekLast s (some P) = some (j - 1) := by
          rw [hsl_eq, hseek]
          show nprev (some j) = some (j - 1)
          rw [nprev, if_neg (by omega)]
        have hprevS : strLt (s[j - 1]).1 (succPfx P) = true := by
          have h1 : j - 1 < (s.take j).length := by
            rw [List.length_take]; omega
          have h2 : (s.take j)[j - 1] = s[j - 1] := List.getElem_take s
          exact seekIdx_take hseek _ (h2 ▸ getElem_mem_store h1)
        have hPle : ∀ e ∈ s, pfxOk P e.1 = true → strLt (s[j - 1]).1 e.1 = false := by
          intro e he hpe
          rcases mem_store_iff.mp he with ⟨i0, hi0, rfl⟩
          have hi0j : i0 < j := idx_lt_of_lt_bound hs hj hSj hi0 (hF1 _ hpe)
          rcases Nat.lt_or_ge i0 (j - 1) with hcase | hcase
          · exact strLt_asymm (sorted_getElem_lt hs hcase hidx)
          · have : i0 = j - 1 := by omega
            subst this
            exact strLt_irrefl _
        refine seekLast_conclusion hidx hsl hPle ?_
        rintro ⟨e0, he0, hpe0⟩
        have h1 : strLt (s[j - 1]).1 P = false :=
          not_lt_trans (hPle e0 he0 hpe0) (pfxOk_not_lt hpe0)
        exact hF2 _ (hkb _ (getElem_mem_store hidx)) h1 hprevS

/-- Witness for C3: on store keys 0x00, 0x01FF, 0x01FF05, 0x03 with prefix
0x01FF (whole-0xFF tail, exercising the carry in the successor), seekLast
lands on 0x01FF05 and is valid. -/
theorem seekLast_max_pfx_witness :
    ∃ i, Iterator.seekLast
        [([0], [1]), ([1, 255], [2]), ([1, 255, 5], [3]), ([3], [4])]
        (some [1, 255]) = some i ∧
      ∃ h : i < [([0], [1]), ([1, 255], [2]), ([1, 255, 5], [3]), ([3], [4])].length,
        pfxOk [1, 255]
          ([([0], [1]), ([1, 255], [2]), ([1, 255, 5], [3]), ([3], [4])].get ⟨i, h⟩).1 = true ∧
        (∀ e ∈ [([0], [1]), ([1, 255], [2]), ([1, 255, 5], [3]), ([3], [4])],
          pfxOk [1, 255] e.1 = true →
            strLt ([([0], [1]), ([1, 255], [2]), ([1, 255, 5], [3]), ([3], [4])].get ⟨i, h⟩).1
              e.1 = false) ∧
        Iterator.valid [([0], [1]), ([1, 255], [2]), ([1, 255, 5], [3]), ([3], [4])]
          (some [1, 255])
          (Iterator.seekLast [([0], [1]), ([1, 255], [2]), ([1, 255, 5], [3]), ([3], [4])]
            (some [1, 255])) = true :=
  (seekLast_max_pfx [([0], [1]), ([1, 255], [2]), ([1, 255, 5], [3]), ([3], [4])]
      [1, 255] (by unfold sortedStore; decide) (by decide) (by decide) (by decide)).1
    ⟨([1, 255], [2]), by decide, by decide⟩

theorem depsReleases_eq_flatMap (l : List (Bool × GNode)) :
    depsReleases l = (l.filter (fun d => d.1)).flatMap (fun d => closedReleases d.2) := by
  induction l with
  | nil => rfl
  | cons d rest ih =>
    obtain ⟨alive, g⟩ := d
    rw [depsReleases]
    cases alive with
    | false => simpa using ih
    | true => simp [ih]

/-- Claim C2.  One `close()` on a guard with a registered dependent set
releases, in order, each still-live dependent's resources (each dependent's
own close is run) and then the guard's own reference exactly once; the
post-state has both fields cleared, and any further `close()` releases
nothing and changes nothing (idempotence — the reference is not released
twice and no dependent is closed again). -/
theorem guard_close_spec (ref : Option Nat) (deps : List (Bool × GNode)) :
    closeG (GNode.mk ref (some deps))
        = (GNode.mk none none,
            (deps.filter (fun d => d.1)).flatMap (fun d => closedReleases d.2) ++ ref.toList)
      ∧ closeG (closeG (GNode.mk ref (some deps))).1 = (GNode.mk none none, []) := by
  constructor
  · show (GNode.mk none none, depsReleases deps ++ ref.toList) = _
    rw [depsReleases_eq_flatMap]
  · rfl

theorem dictGet_dictInsert_self (d : List (Str × Str)) (k v : Str) :
    dictGet (dictInsert d k v) k = some v := by
  induction d with
  | nil => simp [dictInsert, dictGet]
  | cons e rest ih =>
    rw [dictInsert]
    by_cases h : e.1 = k
    · rw [if_pos h, dictGet, if_pos rfl]
    · rw [if_neg h, dictGet, if_neg h, ih]

theorem dictGet_dictPop_self (d : List (Str × Str)) (k : Str) :
    dictGet (dictPop d k) k = none := by
  induction d with
  | nil => rfl
  | cons e rest ih =>
    rw [dictPop, List.filter_cons]
    by_cases h : e.1 = k
    · rw [if_neg (by simp [h])]
      exact ih
    · rw [if_pos (by simp [h])]
      rw [dictGet, if_neg h]
      exact ih

theorem mem_dictInsert {d : List (Str × Str)} {k v : Str} {e : Str × Str}
    (h : e ∈ dictInsert d k v) : e.1 = k ∨ e ∈ d := by
  induction d with
  | nil =>
    rw [dictInsert] at h
    rcases List.mem_singleton.mp h with rfl
    exact Or.inl rfl
  | cons a rest ih =>
    rw [dictInsert] at h
    by_cases ha : a.1 = k
    · rw [if_pos ha] at h
      rcases List.mem_cons.mp h with rfl | h2
      · exact Or.inl rfl
      · exact Or.inr (List.mem_cons_of_mem a h2)
    · rw [if_neg ha] at h
      rcases List.mem_cons.mp h with rfl | h2
      · exact Or.inr (List.mem_cons_self _ _)
      · rcases ih h2 with h3 | h3
        · exact Or.inl h3
        · exact Or.inr (List.mem_cons_of_mem a h3)

theorem mem_dictPop {d : List (Str × Str)} {k : Str} {e : Str × Str} :
    e ∈ dictPop d k ↔ e ∈ d ∧ e.1 ≠ k := by
  simp [dictPop, List.mem_filter]

theorem mem_setAdd {l : List Str} {k x : Str} : x ∈ setAdd l k ↔ x ∈ l ∨ x = k := by
  rw [setAdd]
  by_cases h : k ∈ l
  · rw [if_pos h]
    constructor
    · exact Or.inl
    · rintro (hx | rfl)
      · exact hx
      · exact h
  · rw [if_neg h]
    simp

theorem mem_setDiscard {l : List Str} {k x : Str} : x ∈ setDiscard l k ↔ x ∈ l ∧ x ≠ k := by
  simp [setDiscard, List.mem_filter]

theorem disjointB_iff {b : OWB} : disjointB b = true ↔ ∀ e ∈ b.puts, e.1 ∉ b.deletes := by
  simp [disjointB, List.all_eq_true]

/-- A put never re-creates an overlap: the inserted key was just discarded
from the deletes, untouched keys keep the invariant. -/
theorem disjoint_put {ps : List (Str × Str)} {ds : List Str} (k v : Str)
    (h : ∀ e ∈ ps, e.1 ∉ ds) :
    ∀ e ∈ dictInsert ps k v, e.1 ∉ setDiscard ds k := by
  intro e he
  rw [mem_setDiscard]
  rcases mem_dictInsert he with h1 | h1
  · rintro ⟨-, hne⟩
    exact hne h1
  · rintro ⟨hmem, -⟩
    exact h e h1 hmem

/-- A delete never re-creates an overlap: the added key was just popped
from the puts. -/
theorem disjoint_del {ps : List (Str × Str)} {ds : List Str} (k : Str)
    (h : ∀ e ∈ ps, e.1 ∉ ds) :
    ∀ e ∈ dictPop ps k, e.1 ∉ setAdd ds k := by
  intro e he
  rcases mem_dictPop.mp he with ⟨hmem, hne⟩
  rw [mem_setAdd]
  rintro (hd | hk)
  · exact h e hmem hd
  · exact hne hk

theorem disjointB_applyOp {b : OWB} (op : BatchOp) (h : disjointB b = true) :
    disjointB (applyOp b op) = true := by
  rw [disjointB_iff] at h ⊢
  cases op with
  | bput k v => exact disjoint_put k v h
  | bdel k => exact disjoint_del k h
  | hput hh k v =>
    cases hb : b.priv with
    | false =>
      have hred : applyOp b (BatchOp.hput hh k v) = b := by
        rw [applyOp, DBInterface.putTo, hb]
        rfl
      rw [hred]
      exact h
    | true =>
      have hred : applyOp b (BatchOp.hput hh k v)
          = { b with deletes := setDiscard b.deletes (DBInterface.scopedKey hh k),
                     puts := dictInsert b.puts (DBInterface.scopedKey hh k) v } := by
        rw [applyOp, DBInterface.putTo, hb]
        rfl
      rw [hred]
      exact disjoint_put _ v h
  | hdel hh k =>
    cases hb : b.priv with
    | false =>
      have hred : applyOp b (BatchOp.hdel hh k) = b := by
        rw [applyOp, DBInterface.deleteFrom, hb]
        rfl
      rw [hred]
      exact h
    | true =>
      have hred : applyOp b (BatchOp.hdel hh k)
          = { b with puts := dictPop b.puts (DBInterface.scopedKey hh k),
                     deletes := setAdd b.deletes (DBInterface.scopedKey hh k) } := by
        rw [applyOp, DBInterface.deleteFrom, hb]
        rfl
      rw [hred]
      exact disjoint_del _ h

/-- Claim C7.  Disjointness of the put and delete sets is preserved by
every sequence of put/delete operations (WriteBatch.put, WriteBatch.delete,
DBInterface.putTo, DBInterface.deleteFrom); in particular
`put(k,v1); put(k,v2); delete(k)` leaves `k` only in the delete set, and
`delete(k); put(k,v)` leaves `k` only in the put set with value `v`. -/
theorem batch_disjoint_invariant :
    (∀ (b : OWB) (ops : List BatchOp),
        disjointB b = true → disjointB (applyOps b ops) = true) ∧
      (∀ k v1 v2 : Str,
        dictGet (WriteBatch.delete
            (WriteBatch.put (WriteBatch.put WriteBatch.new k v1) k v2) k).puts k = none ∧
          k ∈ (WriteBatch.delete
            (WriteBatch.put (WriteBatch.put WriteBatch.new k v1) k v2) k).deletes) ∧
      (∀ k v : Str,
        dictGet (WriteBatch.put (WriteBatch.delete WriteBatch.new k) k v).puts k = some v ∧
          k ∉ (WriteBatch.put (WriteBatch.delete WriteBatch.new k) k v).deletes) := by
  refine ⟨?_, ?_, ?_⟩
  · intro b ops
    induction ops generalizing b with
    | nil => exact fun h => h
    | cons op rest ih =>
      intro h
      exact ih (applyOp b op) (disjointB_applyOp op h)
  · intro k v1 v2
    constructor
    · exact dictGet_dictPop_self _ k
    · simp only [WriteBatch.delete]
      rw [mem_setAdd]
      exact Or.inr rfl
  · intro k v
    constructor
    · exact dictGet_dictInsert_self _ k v
    · simp only [WriteBatch.put]
      rw [mem_setDiscard]
      rintro ⟨-, hne⟩
      exact hne rfl

/-- Witness for C7 at a concrete batch and operation list. -/
theorem batch_disjoint_invariant_witness :
    disjointB (applyOps WriteBatch.new
        [BatchOp.bput [1] [2], BatchOp.bdel [1],
          BatchOp.hput (makeDB 1 false false true) [3] [4]]) = true ∧
      dictGet (WriteBatch.delete
          (WriteBatch.put (WriteBatch.put WriteBatch.new [5] [6]) [5] [7]) [5]).puts [5]
        = none ∧
      dictGet (WriteBatch.put (WriteBatch.delete WriteBatch.new [5]) [5] [6]).puts [5]
        = some [6] :=
  ⟨batch_disjoint_invariant.1 WriteBatch.new _ (by decide),
    (batch_disjoint_invariant.2.1 [5] [6] [7]).1,
    (batch_disjoint_invariant.2.2 [5] [6]).1⟩

/-- Claim C5 counterexample.  A handle with id 1 accepts, through `putTo`,
a batch created by a different handle's `newBatch` (ghost origin 2): the
call succeeds and records the put instead of failing with the
invalid-batch-origin error, refuting "every batch not obtained from H's
own newBatch fails". -/
theorem putTo_foreign_batch_accepted :
    (makeDB 1 false false true).hid ≠ 2 ∧
      DBInterface.putTo (makeDB 1 false false true) (newBatch 2) [7] [8]
        = Except.ok ⟨[([7], [8])], [], true, some 2⟩ :=
  ⟨by decide, rfl⟩

/-- Claim C5 as amended: `putTo`/`deleteFrom` validate only the private
flag.  A standalone public WriteBatch is rejected with the
invalid-batch-origin error before any mutation; a batch created by ANY
handle's `newBatch` — not necessarily the calling handle's — is accepted,
and the prefix-translated key is recorded. -/
theorem putTo_deleteFrom_origin_check (h : DBI) (b : OWB) (k v : Str) :
    (b.priv = false →
        DBInterface.putTo h b k v = Except.error "batch not from DBInterface.newBatch" ∧
          DBInterface.deleteFrom h b k
            = Except.error "batch not from DBInterface.newBatch") ∧
      (b.priv = true →
        ∃ b2, DBInterface.putTo h b k v = Except.ok b2 ∧
          dictGet b2.puts (DBInterface.scopedKey h k) = some v ∧
          DBInterface.scopedKey h k ∉ b2.deletes) ∧
      (b.priv = true →
        ∃ b3, DBInterface.deleteFrom h b k = Except.ok b3 ∧
          dictGet b3.puts (DBInterface.scopedKey h k) = none ∧
          DBInterface.scopedKey h k ∈ b3.deletes) := by
  refine ⟨fun hb => ⟨?_, ?_⟩, fun hb => ?_, fun hb => ?_⟩
  · rw [DBInterface.putTo, hb]
    rfl
  · rw [DBInterface.deleteFrom, hb]
    rfl
  · refine ⟨_, by rw [DBInterface.putTo, hb]; rfl, ?_, ?_⟩
    · exact dictGet_dictInsert_self _ _ v
    · rw [mem_setDiscard]
      rintro ⟨-, hne⟩
      exact hne rfl
  · refine ⟨_, by rw [DBInterface.deleteFrom, hb]; rfl, ?_, ?_⟩
    · exact dictGet_dictPop_self _ _
    · rw [mem_setAdd]
      exact Or.inr rfl

/-- Witness for the amended C5: the reject branch on a standalone batch and
the accept branch on an opaque batch from another handle, both at handle
id 3 with prefix 0x09. -/
theorem putTo_deleteFrom_origin_check_witness :
    (DBInterface.putTo ⟨3, some [9], true, false, false, true⟩ WriteBatch.new [1] [2]
        = Except.error "batch not from DBInterface.newBatch") ∧
      (∃ b2, DBInterface.putTo ⟨3, some [9], true, false, false, true⟩ (newBatch 4) [1] [2]
          = Except.ok b2 ∧
        dictGet b2.puts (DBInterface.scopedKey ⟨3, some [9], true, false, false, true⟩ [1])
          = some [2] ∧
        DBInterface.scopedKey ⟨3, some [9], true, false, false, true⟩ [1] ∉ b2.deletes) :=
  ⟨((putTo_deleteFrom_origin_check ⟨3, some [9], true, false, false, true⟩
      WriteBatch.new [1] [2]).1 rfl).1,
    (putTo_deleteFrom_origin_check ⟨3, some [9], true, false, false, true⟩
      (newBatch 4) [1] [2]).2.1 rfl⟩

/-- Claim C8.  Handles produced by `scope()` — at every nesting depth —
carry `allowClose = false`, so their `close()` leaves the shared guard
untouched and releases nothing; the owning handles (those built by opening
a store via `_makeDBFromImpl`, or by `snapshot()`) carry
`allowClose = true` and their `close()` is exactly the guard's close. -/
theorem scoped_close_noop :
    (∀ (h : DBI) (hid2 : Nat) (p : Str) (ds dv df : Option Bool) (g : GNode),
        (DBInterface.scope h hid2 p ds dv df).allowClose = false ∧
          DBInterface.close (DBInterface.scope h hid2 p ds dv df) g = (g, [])) ∧
      (∀ (hid : Nat) (ds dv df : Bool) (g : GNode),
        (makeDB hid ds dv df).allowClose = true ∧
          DBInterface.close (makeDB hid ds dv df) g = closeG g) ∧
      (∀ (h : DBI) (hid2 : Nat) (ds dv df : Option Bool) (g : GNode),
        (DBInterface.snapshot h hid2 ds dv df).allowClose = true ∧
          DBInterface.close (DBInterface.snapshot h hid2 ds dv df) g = closeG g) :=
  ⟨fun _ _ _ _ _ _ _ => ⟨rfl, rfl⟩,
    fun _ _ _ _ _ => ⟨rfl, rfl⟩,
    fun _ _ _ _ _ _ => ⟨rfl, rfl⟩⟩

theorem dictGet_append_of_none {d1 : List (Str × Str)} {x : Str}
    (h : dictGet d1 x = none) (d2 : List (Str × Str)) :
    dictGet (d1 ++ d2) x = dictGet d2 x := by
  induction d1 with
  | nil => rfl
  | cons e rest ih =>
    rw [dictGet] at h
    by_cases he : e.1 = x
    · rw [if_pos he] at h; cases h
    · rw [if_neg he] at h
      rw [List.cons_append, dictGet, if_neg he]
      exact ih h

theorem dictInsert_fresh {d : List (Str × Str)} {k : Str} (h : dictGet d k = none)
    (v : Str) : dictInsert d k v = d ++ [(k, v)] := by
  induction d with
  | nil => rfl
  | cons e rest ih =>
    rw [dictGet] at h
    by_cases he : e.1 = k
    · rw [if_pos he] at h; cases h
    · rw [if_neg he] at h
      rw [dictInsert, if_neg he, ih h, List.cons_append]

theorem setAdd_fresh {l : List Str} {k : Str} (h : k ∉ l) : setAdd l k = l ++ [k] := by
  rw [setAdd, if_neg h]

/-- Rebuilding a dictionary by inserting prefixed copies of pairwise
distinct keys appends them in order: the translated-copy loop in
DBInterface.write is a map over the puts. -/
theorem foldl_dictInsert_map (p : Str) (l : List (Str × Str)) :
    ∀ acc : List (Str × Str),
      (∀ e ∈ l, dictGet acc (p ++ e.1) = none) →
      (l.map (fun e => e.1)).Nodup →
      l.foldl (fun acc2 e => dictInsert acc2 (p ++ e.1) e.2) acc
        = acc ++ l.map (fun e => (p ++ e.1, e.2)) := by
  induction l with
  | nil => intro acc _ _; simp
  | cons e rest ih =>
    intro acc hfresh hnd
    rcases List.nodup_cons.mp hnd with ⟨hnotin, hnd2⟩
    rw [List.foldl_cons, dictInsert_fresh (hfresh e (List.mem_cons_self e rest)) e.2]
    rw [ih (acc ++ [(p ++ e.1, e.2)]) ?_ hnd2]
    · simp
    intro e2 he2
    rw [dictGet_append_of_none (hfresh e2 (List.mem_cons_of_mem e he2))]
    rw [dictGet]
    rw [if_neg ?_]
    · rfl
    intro hx
    have he12 : e.1 = e2.1 := List.append_cancel_left hx
    have hmm : e2.1 ∈ rest.map (fun e3 => e3.1) :=
      List.mem_map_of_mem (fun e3 => e3.1) he2
    rw [← he12] at hmm
    exact hnotin hmm

/-- The translated-copy loop over the deletes is a map as well. -/
theorem foldl_setAdd_map (p : Str) (l : List Str) :
    ∀ acc : List Str,
      (∀ k ∈ l, (p ++ k) ∉ acc) →
      l.Nodup →
      l.foldl (fun acc2 k => setAdd acc2 (p ++ k)) acc = acc ++ l.map (fun k => p ++ k) := by
  induction l with
  | nil => intro acc _ _; simp
  | cons k rest ih =>
    intro acc hfresh hnd
    rcases List.nodup_cons.mp hnd with ⟨hnotin, hnd2⟩
    rw [List.foldl_cons, setAdd_fresh (hfresh k (List.mem_cons_self k rest))]
    rw [ih (acc ++ [p ++ k]) ?_ hnd2]
    · simp
    intro k2 hk2
    rw [List.mem_append]
    rintro (hx | hx)
    · exact hfresh k2 (List.mem_cons_of_mem k hk2) hx
    · rcases List.mem_singleton.mp hx with hx2
      exact hnotin (List.append_cancel_left hx2 ▸ hk2)

/-- Claim C6.  Submitting a standalone public batch through a handle with a
prefix forwards to the engine a translated copy — every put key and every
delete key re-prefixed, in order — while the caller's batch object is
exactly what it was before the call. -/
theorem write_translates (h : DBI) (b : OWB) (p : Str) (hp : h.pfix = some p)
    (hbp : b.priv = false)
    (hnd : (b.puts.map (fun e => e.1)).Nodup) (hnd2 : b.deletes.Nodup) :
    (DBInterface.write h b).1.puts = b.puts.map (fun e => (p ++ e.1, e.2)) ∧
      (DBInterface.write h b).1.deletes = b.deletes.map (fun k => p ++ k) ∧
      (DBInterface.write h b).2 = b := by
  have hw : DBInterface.write h b
      = (⟨b.puts.foldl (fun acc e => dictInsert acc (p ++ e.1) e.2) [],
          b.deletes.foldl (fun acc k => setAdd acc (p ++ k)) [],
          true, none⟩, b) := by
    rw [DBInterface.write, hp, hbp]
    rfl
  rw [hw]
  refine ⟨?_, ?_, rfl⟩
  · rw [foldl_dictInsert_map p b.puts [] (fun e _ => rfl) hnd, List.nil_append]
  · rw [foldl_setAdd_map p b.deletes [] (fun k _ => List.not_mem_nil _) hnd2,
      List.nil_append]

/-- Witness for C6 with prefix 0x09, two puts and one delete. -/
theorem write_translates_witness :
    (DBInterface.write ⟨1, some [9], true, false, false, true⟩
        ⟨[([1], [2]), ([3], [4])], [[5]], false, none⟩).1.puts
        = [([9, 1], [2]), ([9, 3], [4])] ∧
      (DBInterface.write ⟨1, some [9], true, false, false, true⟩
        ⟨[([1], [2]), ([3], [4])], [[5]], false, none⟩).1.deletes = [[9, 5]] ∧
      (DBInterface.write ⟨1, some [9], true, false, false, true⟩
        ⟨[([1], [2]), ([3], [4])], [[5]], false, none⟩).2
        = ⟨[([1], [2]), ([3], [4])], [[5]], false, none⟩ := by
  obtain ⟨h1, h2, h3⟩ := write_translates ⟨1, some [9], true, false, false, true⟩
    ⟨[([1], [2]), ([3], [4])], [[5]], false, none⟩ [9] rfl rfl (by decide) (by decide)
  exact ⟨by rw [h1]; rfl, by rw [h2]; rfl, h3⟩

/-- Claim C10 (code bug).  `range` with an exclusive start bound reads the
cursor's key() without checking validity: on a store holding only key 0x61,
`range(start_key=0x62, start_inclusive=False)` seeks past the last entry
and then evaluates key() on the invalid cursor — the undefined native read
(the error), instead of never reading key() while invalid. -/
theorem range_reads_key_on_invalid_cursor :
    rangeRows [([97], [100])] none (some [98]) none false false = Except.error () := rfl

/-- Claim C9 counterexample.  On a store holding only key 0x61 with
start = 0x63 exclusive, the rows satisfying the bounds form the empty
list, but `range` does not yield it — it aborts in the undefined key()
read — so range does not, for every store and bounds, yield exactly the
in-bounds rows. -/
theorem range_bounds_counterexample :
    rangeRows [([97], [100])] none (some [99]) none false true = Except.error () ∧
      ([([97], [100])].filter
          (fun e => pfxOkOpt none e.1 && startOk (some [99]) false (stripPfx none e.1)
            && !endBeyond none true (stripPfx none e.1))).map
        (fun e => (stripPfx none e.1, e.2)) = [] ∧
      rangeRows [([97], [100])] none (some [99]) none false true ≠
        Except.ok
          (([([97], [100])].filter
              (fun e => pfxOkOpt none e.1 && startOk (some [99]) false (stripPfx none e.1)
                && !endBeyond none true (stripPfx none e.1))).map
            (fun e => (stripPfx none e.1, e.2))) := by
  refine ⟨rfl, rfl, ?_⟩
  intro hcontra
  exact Except.noConfusion hcontra

theorem Iterator.seek_eq (s : Store) (pf : Option Str) (k : Str) :
    Iterator.seek s pf k = seekIdx s (seekKey pf k) := by
  cases pf <;> rfl

theorem stripPfx_seekKey (pf : Option Str) (st : Str) :
    stripPfx pf (seekKey pf st) = st := by
  cases pf with
  | none => rfl
  | some P =>
    show (P ++ st).drop P.length = st
    exact List.drop_left P st

theorem nseekFirst_eq (s : Store) : nseekFirst s = seekIdx s [] := by
  cases s with
  | nil => rfl
  | cons a t => simp [nseekFirst, seekIdx, strLt_nil_right]

theorem collectPfx_none (l : List (Str × Str)) : collectPfx none l = l := by
  induction l with
  | nil => rfl
  | cons e rest ih => simp [collectPfx, pfxOkOpt, stripPfx, ih]

/-- On a cons-free reflexive bound: everything at or after an entry at or
above `K` stays at or above `K`. -/
theorem drop_ge_of_bound {s : Store} {K : Str} {i : Nat} (hs : sortedStore s)
    (hi : i < s.length) (hSi : strLt (s[i]).1 K = false) :
    ∀ e ∈ s.drop i, strLt e.1 K = false := by
  have hdrop : s.drop i = s[i] :: s.drop (i + 1) := List.drop_eq_getElem_cons hi
  have hs_drop : List.Pairwise (fun a b => strLt a.1 b.1 = true) (s.drop i) :=
    hs.sublist (List.drop_sublist i s)
  rw [hdrop] at hs_drop ⊢
  intro e he
  rcases List.mem_cons.mp he with rfl | he2
  · exact hSi
  · exact not_lt_of_above ((List.pairwise_cons.mp hs_drop).1 e he2) hSi

/-- The iteration loop over a run whose keys are all at or above the
iterator's own prefix collects exactly the prefix-passing entries, with
the prefix stripped (both prefix shapes). -/
theorem collectPfx_eq_filter_opt (pf : Option Str) (l : List (Str × Str))
    (hsl : List.Pairwise (fun a b => strLt a.1 b.1 = true) l)
    (hge : ∀ P, pf = some P → ∀ e ∈ l, strLt e.1 P = false) :
    collectPfx pf l
      = (l.filter (fun e => pfxOkOpt pf e.1)).map (fun e => (stripPfx pf e.1, e.2)) := by
  cases pf with
  | none =>
    rw [collectPfx_none]
    have h1 : (fun (e : Str × Str) => pfxOkOpt none e.1) = fun _ => true := rfl
    have h2 : (fun (e : Str × Str) => (stripPfx none e.1, e.2)) = fun e => e := rfl
    rw [h1, h2, List.filter_true, List.map_id']
  | some P => exact collectPfx_some_eq_filter P l hsl (hge P rfl)

/-- After `seek(K)` (already translated), iterating collects exactly the
prefix-passing entries at or above `K`, provided `K` itself is at or above
the prefix. -/
theorem iterAll_from_seek (s : Store) (pf : Option Str) (K : Str) (hs : sortedStore s)
    (hK : ∀ P, pf = some P → strLt K P = false) :
    iterAll s pf (seekIdx s K)
      = ((s.filter (fun e => pfxOkOpt pf e.1 && !strLt e.1 K)).map
          (fun e => (stripPfx pf e.1, e.2))) := by
  cases hseek : seekIdx s K with
  | none =>
    have hall := seekIdx_none hseek
    have hf : s.filter (fun e => pfxOkOpt pf e.1 && !strLt e.1 K) = [] := by
      rw [List.filter_eq_nil_iff]
      intro e he
      rw [hall e he]
      simp
    rw [hf]
    rfl
  | some i =>
    have hi : i < s.length := seekIdx_lt_length hseek
    rcases seekIdx_some hseek with ⟨e0, he0, hlt0, -⟩
    have he0i : e0 = s[i] := by
      rw [List.getElem?_eq_getElem hi] at he0
      exact (Option.some.inj he0).symm
    subst he0i
    have hge_drop : ∀ e ∈ s.drop i, strLt e.1 K = false := drop_ge_of_bound hs hi hlt0
    have hs_drop : List.Pairwise (fun a b => strLt a.1 b.1 = true) (s.drop i) :=
      hs.sublist (List.drop_sublist i s)
    rw [iterAll, iterAllFrom_eq_collect]
    rw [collectPfx_eq_filter_opt pf (s.drop i) hs_drop
      (fun P hP e he => not_lt_trans (hge_drop e he) (hK P hP))]
    have hsplit : s.filter (fun e => pfxOkOpt pf e.1 && !strLt e.1 K)
        = (s.take i).filter (fun e => pfxOkOpt pf e.1 && !strLt e.1 K)
          ++ (s.drop i).filter (fun e => pfxOkOpt pf e.1 && !strLt e.1 K) := by
      rw [← List.filter_append, List.take_append_drop]
    have htake : (s.take i).filter (fun e => pfxOkOpt pf e.1 && !strLt e.1 K) = [] := by
      rw [List.filter_eq_nil_iff]
      intro e he
      rw [seekIdx_take hseek e he]
      simp
    have hcongr : (s.drop i).filter (fun e => pfxOkOpt pf e.1 && !strLt e.1 K)
        = (s.drop i).filter (fun e => pfxOkOpt pf e.1) := by
      refine List.filter_congr ?_
      intro e he
      rw [hge_drop e he]
      simp
    rw [hsplit, htake, List.nil_append, hcongr]

theorem endBeyond_mono {endK : Option Str} {ei : Bool} {k k2 : Str}
    (h : endBeyond endK ei k = true) (hlt : strLt k k2 = true) :
    endBeyond endK ei k2 = true := by
  cases endK with
  | none => cases h
  | some e =>
    rw [endBeyond] at h ⊢
    simp only [Bool.or_eq_true, Bool.and_eq_true, decide_eq_true_eq] at h ⊢
    rcases h with h1 | ⟨h1, h2⟩
    · exact Or.inl (strLt_trans h1 hlt)
    · subst h2
      exact Or.inl hlt

/-- On rows in ascending key order the range loop's break is final: cutting
at the first out-of-bound row is the same as filtering. -/
theorem takeWhile_end_of_sorted (endK : Option Str) (ei : Bool) (l : List (Str × Str))
    (hl : List.Pairwise (fun a b => strLt a.1 b.1 = true) l) :
    l.takeWhile (fun r => !endBeyond endK ei r.1)
      = l.filter (fun r => !endBeyond endK ei r.1) := by
  induction l with
  | nil => rfl
  | cons a rest ih =>
    rcases List.pairwise_cons.mp hl with ⟨hhead, hrest⟩
    cases hq : endBeyond endK ei a.1 with
    | false =>
      rw [List.takeWhile_cons, List.filter_cons]
      rw [hq]
      simp only [Bool.not_false, if_pos rfl, ite_true]
      rw [ih hrest]
    | true =>
      rw [List.takeWhile_cons, List.filter_cons, hq]
      simp only [Bool.not_true]
      have hrest_nil : rest.filter (fun r => !endBeyond endK ei r.1) = [] := by
        rw [List.filter_eq_nil_iff]
        intro e he
        rw [endBeyond_mono hq (hhead e he)]
        simp
      rw [hrest_nil]
      rfl

theorem pairwise_strip (pf : Option Str) (l : List (Str × Str))
    (hl : List.Pairwise (fun a b => strLt a.1 b.1 = true) l)
    (hpfx : ∀ e ∈ l, pfxOkOpt pf e.1 = true) :
    List.Pairwise (fun a b => strLt a.1 b.1 = true)
      (l.map (fun e => (stripPfx pf e.1, e.2))) := by
  rw [List.pairwise_map]
  refine List.Pairwise.imp_of_mem ?_ hl
  intro a b ha hb hab
  cases pf with
  | none => exact hab
  | some P =>
    rcases pfxOk_iff_exists.mp (hpfx a ha) with ⟨t1, ht1⟩
    rcases pfxOk_iff_exists.mp (hpfx b hb) with ⟨t2, ht2⟩
    show strLt ((a.1).drop P.length) ((b.1).drop P.length) = true
    rw [ht1, ht2, List.drop_left, List.drop_left]
    rw [ht1, ht2, strLt_append_same] at hab
    exact hab

theorem not_lt_eq_lt_of_ne {a b : Str} (h : a ≠ b) : (!strLt a b) = strLt b a := by
  rcases strLt_trichotomy a b with h1 | h1 | h1
  · rw [h1, strLt_asymm h1]
    rfl
  · exact absurd h1 h
  · rw [strLt_asymm h1, h1]
    rfl

/-- Folding the end bound into the row list: on a sorted store, cutting the
collected rows at the first end-bound violation equals filtering the store
by prefix, start bound and end bound together. -/
theorem assemble_rows (s : Store) (pf : Option Str) (endK : Option Str) (ei : Bool)
    (bB bS : (Str × Str) → Bool) (hs : sortedStore s)
    (hbb : ∀ e ∈ s, pfxOkOpt pf e.1 = true → bB e = bS e) :
    ((s.filter (fun e => pfxOkOpt pf e.1 && bB e)).map
        (fun e => (stripPfx pf e.1, e.2))).takeWhile (fun r => !endBeyond endK ei r.1)
      = (s.filter (fun e => pfxOkOpt pf e.1 && bS e
            && !endBeyond endK ei (stripPfx pf e.1))).map
          (fun e => (stripPfx pf e.1, e.2)) := by
  have hfB : s.filter (fun e => pfxOkOpt pf e.1 && bB e)
      = s.filter (fun e => pfxOkOpt pf e.1 && bS e) := by
    refine List.filter_congr ?_
    intro e he
    cases hp : pfxOkOpt pf e.1 with
    | false => simp
    | true => rw [hbb e he hp]
  rw [hfB]
  have hsf : List.Pairwise (fun a b => strLt a.1 b.1 = true)
      (s.filter (fun e => pfxOkOpt pf e.1 && bS e)) :=
    hs.sublist (List.filter_sublist s)
  have hpfx_f : ∀ e ∈ s.filter (fun e => pfxOkOpt pf e.1 && bS e),
      pfxOkOpt pf e.1 = true := by
    intro e he
    have h2 := (List.mem_filter.mp he).2
    simp only [Bool.and_eq_true] at h2
    exact h2.1
  rw [takeWhile_end_of_sorted endK ei _ (pairwise_strip pf _ hsf hpfx_f)]
  rw [List.filter_map, List.filter_filter]
  refine congrArg (List.map _) (List.filter_congr ?_)
  intro e _
  simp only [Function.comp]
  rw [Bool.and_comm, Bool.and_assoc]

theorem seekIdx_getElem_ge {s : Store} {K : Str} {i : Nat} (h : seekIdx s K = some i) :
    ∃ hi : i < s.length, strLt (s[i]).1 K = false := by
  have hi : i < s.length := seekIdx_lt_length h
  rcases seekIdx_some h with ⟨e0, he0, hlt0, -⟩
  have he0i : e0 = s[i] := by
    rw [List.getElem?_eq_getElem hi] at he0
    exact (Option.some.inj he0).symm
  exact ⟨hi, he0i ▸ hlt0⟩

theorem getElem_mem_take {s : Store} {i i0 : Nat} (hi0 : i0 < s.length) (hlt : i0 < i) :
    s[i0] ∈ s.take i := by
  have h1 : i0 < (s.take i).length := by
    rw [List.length_take]
    omega
  have h2 : (s.take i)[i0] = s[i0] := List.getElem_take s
  exact h2 ▸ getElem_mem_store h1

theorem drop_succ_gt {s : Store} (hs : sortedStore s) {i : Nat} (hi : i < s.length) :
    ∀ e ∈ s.drop (i + 1), strLt (s[i]).1 e.1 = true := by
  have hdrop : s.drop i = s[i] :: s.drop (i + 1) := List.drop_eq_getElem_cons hi
  have hp : List.Pairwise (fun a b => strLt a.1 b.1 = true) (s.drop i) :=
    hs.sublist (List.drop_sublist i s)
  rw [hdrop] at hp
  exact (List.pairwise_cons.mp hp).1

/-- The exclusive-start positioning of `range`: after seeking the
translated start key, reading the current key and stepping over an exact
match, iteration collects exactly the prefix-passing entries strictly
above the translated start key. -/
theorem iterAll_exclusive_start (s : Store) (pf : Option Str) (st : Str) (hs : sortedStore s)
    {i : Nat} (hseek : seekIdx s (seekKey pf st) = some i)
    {k0 : Str} (hk : keyRead s pf (some i) = Except.ok k0) :
    iterAll s pf (if k0 = st then nnext s (some i) else some i)
      = ((s.filter (fun e => pfxOkOpt pf e.1 && strLt (seekKey pf st) e.1)).map
          (fun e => (stripPfx pf e.1, e.2))) := by
  rcases seekIdx_getElem_ge hseek with ⟨hi, hSi⟩
  have hk0 : k0 = stripPfx pf (s[i]).1 := by
    rw [keyRead, List.getElem?_eq_getElem hi] at hk
    exact (Except.ok.inj hk).symm
  have hK_ge_P : ∀ P, pf = some P → strLt (seekKey pf st) P = false := by
    intro P hP
    subst hP
    exact pfxOk_not_lt (pfxOk_append P st)
  by_cases hk0st : k0 = st
  · rw [if_pos hk0st]
    have hp2 : iterAll s pf (nnext s (some i)) = collectPfx pf (s.drop (i + 1)) := by
      rw [nnext]
      by_cases hlen : i + 1 < s.length
      · rw [if_pos hlen]
        exact iterAllFrom_eq_collect s pf (i + 1)
      · rw [if_neg hlen]
        rw [List.drop_eq_nil_of_le (by omega)]
        rfl
    rw [hp2]
    by_cases hpi : pfxOkOpt pf (s[i]).1 = true
    · -- the cursor sat exactly on the translated start key; skip it
      have hiK : (s[i]).1 = seekKey pf st := by
        cases pf with
        | none =>
          rw [hk0] at hk0st
          exact hk0st
        | some P =>
          rcases pfxOk_iff_exists.mp hpi with ⟨t, ht⟩
          have : k0 = t := by
            rw [hk0, ht]
            show (P ++ t).drop P.length = t
            exact List.drop_left P t
          rw [this] at hk0st
          rw [ht, hk0st]
          rfl
      have hdropgt : ∀ e ∈ s.drop (i + 1), strLt (seekKey pf st) e.1 = true := by
        intro e he
        rw [← hiK]
        exact drop_succ_gt hs hi e he
      have hs_drop : List.Pairwise (fun a b => strLt a.1 b.1 = true) (s.drop (i + 1)) :=
        hs.sublist (List.drop_sublist (i + 1) s)
      rw [collectPfx_eq_filter_opt pf (s.drop (i + 1)) hs_drop
        (fun P hP e he => not_lt_of_above (hdropgt e he) (hK_ge_P P hP))]
      have hsplit : s.filter (fun e => pfxOkOpt pf e.1 && strLt (seekKey pf st) e.1)
          = (s.take (i + 1)).filter (fun e => pfxOkOpt pf e.1 && strLt (seekKey pf st) e.1)
            ++ (s.drop (i + 1)).filter
                (fun e => pfxOkOpt pf e.1 && strLt (seekKey pf st) e.1) := by
        rw [← List.filter_append, List.take_append_drop]
      have htake : (s.take (i + 1)).filter
          (fun e => pfxOkOpt pf e.1 && strLt (seekKey pf st) e.1) = [] := by
        rw [List.filter_eq_nil_iff]
        intro e he
        have hne : strLt (seekKey pf st) e.1 = false := by
          rw [List.take_succ] at he
          rcases List.mem_append.mp he with he2 | he2
          · exact strLt_asymm (seekIdx_take hseek e he2)
          · have he3 : e = s[i] := by
              rw [List.getElem?_eq_getElem hi] at he2
              simpa using he2
            rw [he3, hiK]
            exact strLt_irrefl _
        rw [hne]
        simp
      have hcongr : (s.drop (i + 1)).filter
            (fun e => pfxOkOpt pf e.1 && strLt (seekKey pf st) e.1)
          = (s.drop (i + 1)).filter (fun e => pfxOkOpt pf e.1) := by
        refine List.filter_congr ?_
        intro e he
        rw [hdropgt e he]
        simp
      rw [hsplit, htake, List.nil_append, hcongr]
    · -- the cursor sat on a non-prefix key whose stripped form collides
      -- with the start key; skipping it changes nothing, both sides empty
      cases pf with
      | none => simp [pfxOkOpt] at hpi
      | some P =>
        have hpiP : pfxOk P (s[i]).1 = false := by
          cases hx : pfxOk P (s[i]).1
          · rfl
          · exact absurd hx hpi
        have hSiP : strLt (s[i]).1 P = false :=
          not_lt_trans hSi (hK_ge_P P rfl)
        have hnoPabove : ∀ e ∈ s.drop (i + 1), pfxOk P e.1 = false := by
          intro e he
          cases hx : pfxOk P e.1
          · rfl
          · exact absurd (pfx_between hx hSiP (drop_succ_gt hs hi e he)) (by rw [hpiP]; simp)
        have hleft : collectPfx (some P) (s.drop (i + 1)) = [] := by
          cases hdrop1 : s.drop (i + 1) with
          | nil => rfl
          | cons e2 rest2 =>
            rw [collectPfx]
            rw [if_neg ?_]
            show ¬ pfxOkOpt (some P) e2.1 = true
            have : pfxOk P e2.1 = false :=
              hnoPabove e2 (by rw [hdrop1]; exact List.mem_cons_self _ _)
            rw [show pfxOkOpt (some P) e2.1 = pfxOk P e2.1 from rfl, this]
            simp
        have hright : s.filter (fun e => pfxOkOpt (some P) e.1
            && strLt (seekKey (some P) st) e.1) = [] := by
          rw [List.filter_eq_nil_iff]
          intro e he hconj
          simp only [Bool.and_eq_true] at hconj
          rcases mem_store_iff.mp he with ⟨i0, hi0, he0⟩
          rcases Nat.lt_trichotomy i0 i with hc | hc | hc
          · have h1 : strLt e.1 (seekKey (some P) st) = true :=
              seekIdx_take hseek e (he0 ▸ getElem_mem_take hi0 hc)
            rw [strLt_asymm h1] at hconj
            exact Bool.false_ne_true hconj.2
          · subst hc
            rw [he0] at hpi
            exact hpi hconj.1
          · have h1 : strLt (s[i]).1 e.1 = true := by
              rw [← he0]
              exact sorted_getElem_lt hs hc hi0
            have := pfx_between hconj.1 hSiP h1
            rw [hpiP] at this
            exact Bool.false_ne_true this
        rw [hleft, hright]
        rfl
  · rw [if_neg hk0st, ← hseek, iterAll_from_seek s pf (seekKey pf st) hs hK_ge_P]
    refine congrArg (List.map _) (List.filter_congr ?_)
    intro e he
    cases hp : pfxOkOpt pf e.1 with
    | false => rfl
    | true =>
      have hne : e.1 ≠ seekKey pf st := by
        intro heK
        rcases mem_store_iff.mp he with ⟨i0, hi0, he0⟩
        rcases Nat.lt_trichotomy i0 i with hc | hc | hc
        · have h1 : strLt e.1 (seekKey pf st) = true :=
            seekIdx_take hseek e (he0 ▸ getElem_mem_take hi0 hc)
          rw [heK, strLt_irrefl] at h1
          exact Bool.false_ne_true h1
        · subst hc
          rw [hk0, he0, heK, stripPfx_seekKey] at hk0st
          exact hk0st rfl
        · have h1 : strLt (s[i]).1 e.1 = true := by
            rw [← he0]
            exact sorted_getElem_lt hs hc hi0
          rw [heK] at h1
          rw [hSi] at h1
          exact Bool.false_ne_true h1
      rw [not_lt_eq_lt_of_ne hne]

theorem seekKey_ge_pfx (pf : Option Str) (st : Str) :
    ∀ P, pf = some P → strLt (seekKey pf st) P = false := by
  intro P hP
  subst hP
  exact pfxOk_not_lt (pfxOk_append P st)

/-- Comparing against the translated start key is comparing the stripped
key against the raw start key, for any entry in the iterator's scope. -/
theorem strLt_seekKey_iff (pf : Option Str) (st : Str) {k : Str}
    (hp : pfxOkOpt pf k = true) :
    strLt (seekKey pf st) k = strLt st (stripPfx pf k) ∧
      strLt k (seekKey pf st) = strLt (stripPfx pf k) st := by
  cases pf with
  | none => exact ⟨rfl, rfl⟩
  | some P =>
    rcases pfxOk_iff_exists.mp hp with ⟨t, rfl⟩
    constructor
    · show strLt (P ++ st) (P ++ t) = strLt st ((P ++ t).drop P.length)
      rw [List.drop_left, strLt_append_same]
    · show strLt (P ++ t) (P ++ st) = strLt ((P ++ t).drop P.length) st
      rw [List.drop_left, strLt_append_same]

/-- Claim C9 as amended.  Whenever `range` does not hit the undefined
key() read (start inclusive, or no start bound, or some stored key at or
above the translated start), it yields exactly the rows of the iterator's
scope whose caller-visible key satisfies the start and end bounds under
byte-lexicographic comparison, in ascending order; over stored keys
a,b,c,d,e the call range(start=b, end=d, inclusive/exclusive) yields
exactly the rows of b and c, in order (see the witness). -/
theorem range_yields_bounded_rows (s : Store) (pf : Option Str) (startK endK : Option Str)
    (si ei : Bool) (hs : sortedStore s)
    (hsafe : si = true ∨ startK = none ∨
      ∃ st, startK = some st ∧ ∃ e ∈ s, strLt e.1 (seekKey pf st) = false) :
    rangeRows s pf startK endK si ei
      = Except.ok ((s.filter (fun e => pfxOkOpt pf e.1
            && startOk startK si (stripPfx pf e.1)
            && !endBeyond endK ei (stripPfx pf e.1))).map
          (fun e => (stripPfx pf e.1, e.2))) := by
  cases startK with
  | none =>
    show Except.ok ((iterAll s pf (Iterator.seekFirst s pf)).takeWhile
        (fun r => !endBeyond endK ei r.1)) = _
    congr 1
    cases pf with
    | none =>
      rw [show Iterator.seekFirst s none = nseekFirst s from rfl, nseekFirst_eq]
      rw [iterAll_from_seek s none [] hs (by intro P hP; cases hP)]
      refine assemble_rows s none endK ei _ _ hs ?_
      intro e _ _
      rw [strLt_nil_right]
      rfl
    | some P =>
      rw [show Iterator.seekFirst s (some P) = seekIdx s P from rfl]
      rw [iterAll_from_seek s (some P) P hs
        (fun Q hQ => (Option.some.inj hQ) ▸ strLt_irrefl P)]
      refine assemble_rows s (some P) endK ei _ _ hs ?_
      intro e _ hp
      rw [pfxOk_not_lt hp]
      rfl
  | some st =>
    cases si with
    | true =>
      show Except.ok ((iterAll s pf (Iterator.seek s pf st)).takeWhile
          (fun r => !endBeyond endK ei r.1)) = _
      congr 1
      rw [Iterator.seek_eq, iterAll_from_seek s pf (seekKey pf st) hs (seekKey_ge_pfx pf st)]
      refine assemble_rows s pf endK ei _ _ hs ?_
      intro e _ hp
      show (!strLt e.1 (seekKey pf st)) = startOk (some st) true (stripPfx pf e.1)
      rw [(strLt_seekKey_iff pf st hp).2]
      rfl
    | false =>
      rcases hsafe with h | h | ⟨st2, hst2, e1, he1, hge1⟩
      · cases h
      · cases h
      · cases Option.some.inj hst2
        cases hseek : seekIdx s (seekKey pf st) with
        | none =>
          have := seekIdx_none hseek e1 he1
          rw [hge1] at this
          cases this
        | some i =>
          rcases seekIdx_getElem_ge hseek with ⟨hi, -⟩
          have hkread : keyRead s pf (some i) = Except.ok (stripPfx pf (s[i]).1) := by
            rw [keyRead, List.getElem?_eq_getElem hi]
          show (match keyRead s pf (Iterator.seek s pf st) with
            | Except.error e => Except.error e
            | Except.ok k =>
              Except.ok ((iterAll s pf (if k = st then nnext s (Iterator.seek s pf st)
                  else Iterator.seek s pf st)).takeWhile
                (fun (r : Str × Str) => !endBeyond endK ei r.1))) = _
          rw [Iterator.seek_eq, hseek, hkread]
          show Except.ok ((iterAll s pf
              (if stripPfx pf (s[i]).1 = st then nnext s (some i)
                else some i)).takeWhile (fun r => !endBeyond endK ei r.1)) = _
          rw [iterAll_exclusive_start s pf st hs hseek hkread]
          congr 1
          refine assemble_rows s pf endK ei _ _ hs ?_
          intro e _ hp
          show strLt (seekKey pf st) e.1 = startOk (some st) false (stripPfx pf e.1)
          rw [(strLt_seekKey_iff pf st hp).1]
          rfl

/-- Witness for the amended C9: stored keys 0x61..0x65, start 0x62
inclusive, end 0x64 exclusive, no prefix — exactly the rows of 0x62 and
0x63, in order. -/
theorem range_yields_bounded_rows_witness :
    rangeRows [([97], [0]), ([98], [1]), ([99], [2]), ([100], [3]), ([101], [4])]
        none (some [98]) (some [100]) true false
      = Except.ok [([98], [1]), ([99], [2])] := by
  rw [range_yields_bounded_rows _ _ _ _ _ _ (by unfold sortedStore; decide) (Or.inl rfl)]
  rfl

end LevelDB
